import Mathlib

/-!
# Shared-stack coroutine scheduler (`coroutine.c`)

A shallow embedding of the scheduler in `src/src/coroutine.c`.

* C `int` fields (`capacity`, `running`, `size`, ids) are `Int`.
* The pointer array `cos` is a list of optional coroutines whose length is the
  number of pointers currently allocated; `NULL` is `none`.
* The shared stack `char stack[DEFAULT_STACK_SZIE]` is a map from the offset
  within the array to the byte stored there. The code that runs on it changes
  it as it pleases; a run has a step for such a store.
* A `ucontext_t` is abstracted to the identity of the flow of control it
  resumes (`Ctx`); `swapcontext (&a, &b)` stores the executing flow in `a` and
  makes the flow stored in `b` the executing one.
* A failed `assert` and an out-of-bounds `memcpy` end the run with a `Fault`.
* The driver `main` and the coroutine body `test` of `src/src/main.c` are
  embedded as `mainTrace`; the local `i` of `test` lives on the shared stack,
  so it survives a switch only through the snapshot.
-/

namespace CoLib

/-- The macro `DEFAULT_STACK_SZIE`, `1024 * 1024`. -/
def DEFAULT_STACK_SZIE : Nat := 1024 * 1024

/-- The macro `DEFAULT_COROUTINE_NUM`. -/
def DEFAULT_COROUTINE_NUM : Int := 16

/-- The enumeration `CoState`. -/
inductive CoState where
  | CO_READY
  | CO_RUNNING
  | CO_SUSPEND
  | CO_DONE
  deriving DecidableEq, Repr

/-- The integer value of an enumerator of `CoState`. -/
def CoState.val : CoState → Int
  | .CO_READY => 0
  | .CO_RUNNING => 1
  | .CO_SUSPEND => 2
  | .CO_DONE => 3

/-- A function pointer of type `CoFunc`, by address; `0` is `NULL`. -/
abbrev CoFunc := Nat

/-- A `void *` argument, by address. -/
abbrev Arg := Nat

/-- One `char` of stack memory. -/
abbrev Byte := Nat

/-- What a `ucontext_t` resumes: nothing yet (`null`, the zeroed structure that
`calloc` leaves), the scheduler's caller, or the flow started by the trampoline
`_coroutine_entry` for the coroutine it found in slot `cid`. -/
inductive Ctx where
  | null
  | main
  | co (cid : Int)
  deriving DecidableEq, Repr

/-- How a run ends abnormally: a failed `assert`; a `memcpy` whose length or
range lies outside the objects it is given, or a step of a flow that was
switched to through a zeroed context (`memory`); or a step that the executing
flow has no code for (`stuck`). -/
inductive Fault where
  | assertion
  | memory
  | stuck
  deriving DecidableEq, Repr

/-- The structure `Coroutine`. The back pointer `scher` is left out: it is set
once and never read. `stack` is the private snapshot buffer, its length the
allocated length (`NULL` is the empty buffer). -/
structure Coroutine where
  func : CoFunc
  arg : Arg
  state : CoState
  ctx : Ctx
  size : Int
  stack : List Byte
  deriving DecidableEq

/-- The structure `Scheduler`. -/
structure Scheduler where
  cos : List (Option Coroutine)
  capacity : Int
  main : Ctx
  running : Int
  stack : Nat → Byte

/-- The scheduler together with the flow of control that is executing. -/
structure Machine where
  s : Scheduler
  cur : Ctx

/-- The pointer `s->cos[i]`; an index past the allocated length reads as `NULL`. -/
def Scheduler.slot (s : Scheduler) (i : Nat) : Option Coroutine :=
  s.cos.getD i none

/-- Library `realloc` of a pointer array to `n` entries: the old entries are kept up to
the new length. The entries past the old length are indeterminate in C; no
function reads one before writing it, and they are `NULL` here. -/
def reallocCos (cos : List (Option Coroutine)) (n : Nat) : List (Option Coroutine) :=
  cos.take n ++ List.replicate (n - cos.length) none

/-- Library `realloc` of a byte buffer to `n` bytes: the old bytes are kept up to the
new length, the rest is indeterminate (zero here). -/
def reallocBytes (buf : List Byte) (n : Nat) : List Byte :=
  buf.take n ++ List.replicate (n - buf.length) 0

/-- Function `coroutine_open`: `calloc` zeroes the whole scheduler, then the capacity is
set and a zeroed pointer array of that length is allocated. -/
def coroutine_open : Scheduler :=
  { cos := List.replicate DEFAULT_COROUTINE_NUM.toNat none
    capacity := DEFAULT_COROUTINE_NUM
    main := .null
    running := 0
    stack := fun _ => 0 }

/-- Function `_coroutine_new`. -/
def _coroutine_new (func : CoFunc) (arg : Arg) : Coroutine :=
  { func := func
    arg := arg
    state := .CO_READY
    ctx := .null
    size := 0
    stack := [] }

/-- The loop `for (i = 0; i < cap; ++i) if (s->cos[i] == NULL) ...` of
`coroutine_create`, from index `i` with `todo` iterations left: the index at
which the loop stores the coroutine and returns, if it does. -/
def firstFree (cos : List (Option Coroutine)) : (todo : Nat) → (i : Nat) → Option Nat
  | 0, _ => none
  | todo + 1, i =>
    if cos.getD i none = none then some i else firstFree cos todo (i + 1)

/-- Function `coroutine_create`: the scheduler afterwards and the id returned. -/
def coroutine_create (s : Scheduler) (func : CoFunc) (arg : Arg) :
    Except Fault (Scheduler × Int) :=
  if func = 0 then .error .assertion
  else
    let co := _coroutine_new func arg
    let cap := s.capacity
    match firstFree s.cos cap.toNat 0 with
    | some i => .ok ({ s with cos := s.cos.set i (some co) }, (i : Int))
    | none =>
      .ok ({ s with cos := (reallocCos s.cos (cap * 2).toNat).set cap.toNat (some co) }, cap)

/-- The tail of `_coroutine_entry`, run when the entry function of the coroutine
returns; `cid` is the trampoline's local, read from `s->running` when the flow
started. That read and the range assertion after it come right after
`coroutine_resume` checked the same id and stored it in `s->running`, so they
are not a step of their own. The flow ends and `uc_link`, which points at
`s->main`, takes over. -/
def _coroutine_entry_return (m : Machine) (cid : Int) : Machine :=
  { s := { m.s with cos := m.s.cos.set cid.toNat none, running := -1 }
    cur := m.s.main }

/-- The bytes `memcpy` reads from the shared stack, `n` of them from offset `lo`. -/
def readStack (stack : Nat → Byte) (lo n : Nat) : List Byte :=
  (List.range n).map (fun k => stack (lo + k))

/-- The shared stack after `memcpy` wrote `bytes` at offset `lo`. -/
def writeStack (stack : Nat → Byte) (lo : Nat) (bytes : List Byte) : Nat → Byte :=
  fun a => if lo ≤ a ∧ a < lo + bytes.length then bytes.getD (a - lo) 0 else stack a

/-- Function `_save_stack` for `top = s->stack + DEFAULT_STACK_SZIE`; `n` is the
difference `top - &dummy` the function measures, so `&dummy` is offset
`DEFAULT_STACK_SZIE - n` of the shared stack. -/
def _save_stack (co : Coroutine) (stack : Nat → Byte) (n : Int) : Except Fault Coroutine :=
  if ¬ n ≤ (DEFAULT_STACK_SZIE : Int) then .error .assertion
  else
    let buf := if co.size < n then reallocBytes co.stack n.toNat else co.stack
    if n < 0 ∨ buf.length < n.toNat then .error .memory
    else
      .ok { co with
        size := n
        stack := readStack stack (DEFAULT_STACK_SZIE - n.toNat) n.toNat ++ buf.drop n.toNat }

/-- Function `coroutine_resume`, up to and including its `swapcontext`. -/
def coroutine_resume (m : Machine) (cid : Int) : Except Fault Machine :=
  if ¬ (cid ≥ 0 ∧ cid < m.s.capacity) then .error .assertion
  else
    match m.s.slot cid.toNat with
    | none => .ok m
    | some co =>
      match co.state with
      | .CO_READY =>
        let co1 := { co with ctx := .co cid, state := .CO_RUNNING }
        .ok { s := { m.s with
                cos := m.s.cos.set cid.toNat (some co1)
                running := cid
                main := m.cur }
              cur := .co cid }
      | .CO_SUSPEND =>
        if co.size < 0 ∨ (DEFAULT_STACK_SZIE : Int) < co.size
            ∨ co.stack.length < co.size.toNat then .error .memory
        else
          let co1 := { co with state := .CO_RUNNING }
          .ok { s := { m.s with
                  cos := m.s.cos.set cid.toNat (some co1)
                  running := cid
                  main := m.cur
                  stack := writeStack m.s.stack (DEFAULT_STACK_SZIE - co.size.toNat)
                    (co.stack.take co.size.toNat) }
                cur := co.ctx }
      | _ => .ok m

/-- Function `coroutine_yield`, up to and including its `swapcontext`; `n` is the
difference `top - &dummy` that `_save_stack` measures in this call. -/
def coroutine_yield (m : Machine) (n : Int) : Except Fault Machine :=
  let cid := m.s.running
  if ¬ (cid ≥ 0 ∧ cid < m.s.capacity) then .error .assertion
  else
    match m.s.slot cid.toNat with
    | none => .error .assertion
    | some co =>
      match _save_stack co m.s.stack n with
      | .error e => .error e
      | .ok co1 =>
        let co2 := { co1 with state := .CO_SUSPEND, ctx := m.cur }
        .ok { s := { m.s with cos := m.s.cos.set cid.toNat (some co2), running := -1 }
              cur := m.s.main }

/-- Function `coroutine_running`. -/
def coroutine_running (s : Scheduler) : Int :=
  s.running

/-- Function `coroutine_status`. -/
def coroutine_status (s : Scheduler) (cid : Int) : Except Fault Int :=
  if ¬ (cid ≥ 0 ∧ cid < s.capacity) then .error .assertion
  else
    match s.slot cid.toNat with
    | some co => .ok co.state.val
    | none => .ok CoState.CO_DONE.val

/-- The loop of `coroutine_finished` from index `i` with `todo` iterations left:
`false` when it reaches `return 0`. -/
def finishedFrom (cos : List (Option Coroutine)) : (todo : Nat) → (i : Nat) → Bool
  | 0, _ => true
  | todo + 1, i =>
    match cos.getD i none with
    | some co => if co.state ≠ .CO_DONE then false else finishedFrom cos todo (i + 1)
    | none => finishedFrom cos todo (i + 1)

/-- Function `coroutine_finished`. -/
def coroutine_finished (s : Scheduler) : Int :=
  if finishedFrom s.cos s.capacity.toNat 0 then 1 else 0

/-- A step of a run: a call of the interface by the executing flow, the return
of the entry function of the executing coroutine, or a store of the executing
code to offset `off` of the shared stack (a local, a frame). -/
inductive Call where
  | create (func : CoFunc) (arg : Arg)
  | resume (cid : Int)
  | yield (n : Int)
  | ret
  | store (off : Nat) (b : Byte)
  deriving DecidableEq, Repr

/-- One step. A flow that was switched to through a zeroed context executes
nothing, and only a trampoline reaches the tail of `_coroutine_entry`. -/
def step (m : Machine) : Call → Except Fault Machine
  | .create func arg =>
    match m.cur with
    | .null => .error .memory
    | _ =>
      match coroutine_create m.s func arg with
      | .ok (s1, _) => .ok { m with s := s1 }
      | .error e => .error e
  | .resume cid =>
    match m.cur with
    | .null => .error .memory
    | _ => coroutine_resume m cid
  | .yield n =>
    match m.cur with
    | .null => .error .memory
    | _ => coroutine_yield m n
  | .ret =>
    match m.cur with
    | .co cid => .ok (_coroutine_entry_return m cid)
    | .main => .error .stuck
    | .null => .error .memory
  | .store off b =>
    match m.cur with
    | .null => .error .memory
    | _ =>
      if off < DEFAULT_STACK_SZIE then
        .ok { m with s := { m.s with stack := fun a => if a = off then b else m.s.stack a } }
      else .error .memory

/-- A run: steps in sequence, stopping at the first fault. -/
def run (m : Machine) : List Call → Except Fault Machine
  | [] => .ok m
  | c :: cs =>
    match step m c with
    | .ok m1 => run m1 cs
    | .error e => .error e

/-- The machine right after `coroutine_open`, the caller executing. -/
def start : Machine :=
  { s := coroutine_open, cur := .main }

/-- The ids that a sequence of `coroutine_create` calls returns, in order. -/
def createIds (s : Scheduler) : List (CoFunc × Arg) → List Int
  | [] => []
  | (func, arg) :: rest =>
    match coroutine_create s func arg with
    | .ok (s1, id) => id :: createIds s1 rest
    | .error _ => []

/-- Whether every `coroutine_resume` of a run is called by the scheduler's
caller, none from inside a coroutine. -/
def callerResumes (m : Machine) : List Call → Bool
  | [] => true
  | c :: cs =>
    (match c with
      | .resume _ => decide (m.cur = .main)
      | _ => true)
    && (match step m c with
      | .ok m1 => callerResumes m1 cs
      | .error _ => true)

/-- The relation between the flows of control and the registry that holds as
long as only the caller resumes. -/
def CallerInv (m : Machine) : Prop :=
  (∀ (i : Nat) (co : Coroutine), m.s.slot i = some co → co.state = .CO_RUNNING →
      m.cur = .co (i : Int))
  ∧ (m.cur ≠ .null →
      (∀ c : Int, m.cur = .co c → m.s.running = c ∧ m.s.main = .main ∧ 0 ≤ c)
      ∧ (m.cur = .main → m.s.main = .null ∨ m.s.running = -1)
      ∧ (∀ (i : Nat) (co : Coroutine), m.s.slot i = some co → co.state = .CO_SUSPEND →
          co.ctx = .co (i : Int)))

/-- Every coroutine of the registry records a snapshot size between zero and
the stack size, and its private buffer is at least that long. -/
def SnapInv (s : Scheduler) : Prop :=
  ∀ (i : Nat) (co : Coroutine), s.slot i = some co →
    0 ≤ co.size ∧ co.size ≤ (DEFAULT_STACK_SZIE : Int) ∧ co.size.toNat ≤ co.stack.length

/-- Successive `_save_stack` calls on one coroutine, each with the shared stack
at the time of the call and the extent measured. -/
def saveAll (co : Coroutine) : List ((Nat → Byte) × Int) → Except Fault Coroutine
  | [] => .ok co
  | (stack, n) :: rest =>
    match _save_stack co stack n with
    | .ok co1 => saveAll co1 rest
    | .error e => .error e

/-- The allocated length of the private buffer after each of successive
`_save_stack` calls on one coroutine, up to the first fault. -/
def saveLengths (co : Coroutine) : List ((Nat → Byte) × Int) → List Nat
  | [] => []
  | (stack, n) :: rest =>
    match _save_stack co stack n with
    | .ok co1 => co1.stack.length :: saveLengths co1 rest
    | .error _ => []

/-- A scheduler whose sixteen slots all hold a dormant coroutine, as sixteen
creates leave a freshly opened one. -/
def fullRegistry : Scheduler :=
  { coroutine_open with cos := List.replicate 16 (some (_coroutine_new 1 0)) }

/-- The machine after `coroutine_open` and one `coroutine_create`, the caller
executing. -/
def oneCreated : Machine :=
  ⟨⟨some (_coroutine_new 1 0) :: List.replicate 15 none, 16, .null, 0, fun _ => 0⟩, .main⟩

/-- Whether a step is a store of the running code within the shared stack. -/
def isStore : Call → Bool
  | .store off _ => decide (off < DEFAULT_STACK_SZIE)
  | _ => false

/-- No coroutine of the registry has the caller's flow saved as its context. -/
def NoMainCtx (s : Scheduler) : Prop :=
  ∀ (i : Nat) (co : Coroutine), s.slot i = some co → co.ctx ≠ .main

/-- The relation between the flows of control and the registry along every
run: control went to a zeroed context, or only the caller has resumed so far
(with effect), or a coroutine has, and then the caller's flow is saved nowhere
and never executes again. -/
def FlowInv (m : Machine) : Prop :=
  m.cur = .null
    ∨ (CallerInv m ∧ NoMainCtx m.s)
    ∨ (m.cur ≠ .main ∧ m.s.main ≠ .main ∧ NoMainCtx m.s)

/-- The lines `test` of `main.c` prints: the id `coroutine_running` returned and
the counter. -/
abbrev Trace := List (Int × Nat)

/-- The address of the function `test` of `main.c`. -/
def TEST : CoFunc := 1

/-- A store of the running code to the shared stack. -/
def poke (m : Machine) (off : Nat) (b : Byte) : Machine :=
  { m with s := { m.s with stack := fun a => if a = off then b else m.s.stack a } }

/-- The loop of `test` from its condition `i < arg->count` on, up to the next
switch: it prints and yields, or the function returns and the tail of
`_coroutine_entry` runs. The local `i` lives `d` bytes below the top of the
shared stack, `count` is `arg->count`, and `ext` is the extent that
`_save_stack` measures when `test` yields. -/
def test_loop (count d ext : Nat) (m : Machine) (out : Trace) :
    Except Fault (Machine × Trace) :=
  let i := m.s.stack (DEFAULT_STACK_SZIE - d)
  if i < count then
    match coroutine_yield m (ext : Int) with
    | .ok m1 => .ok (m1, out ++ [(coroutine_running m.s, i)])
    | .error e => .error e
  else
    match step m .ret with
    | .ok m1 => .ok (m1, out)
    | .error e => .error e

/-- The function `test` from its start: `i = 0`, then the loop. -/
def test_enter (count d ext : Nat) (m : Machine) (out : Trace) :
    Except Fault (Machine × Trace) :=
  test_loop count d ext (poke m (DEFAULT_STACK_SZIE - d) 0) out

/-- The function `test` from the return of its `coroutine_yield`: `++i`, then the
loop. -/
def test_continue (count d ext : Nat) (m : Machine) (out : Trace) :
    Except Fault (Machine × Trace) :=
  test_loop count d ext
    (poke m (DEFAULT_STACK_SZIE - d) (m.s.stack (DEFAULT_STACK_SZIE - d) + 1)) out

/-- A `coroutine_resume (s, cid)` of `main` together with what the coroutine,
whose entry function is `test`, does until control is back: a dormant
coroutine starts `test`, a suspended one goes on after its yield. `counts`
reads `count` of the `Arg` a coroutine was created with. -/
def resumeTest (counts : Arg → Nat) (d ext : Nat) (m : Machine) (cid : Int) (out : Trace) :
    Except Fault (Machine × Trace) :=
  match coroutine_resume m cid with
  | .error e => .error e
  | .ok m1 =>
    match m.s.slot cid.toNat with
    | some co =>
      match co.state with
      | .CO_READY => test_enter (counts co.arg) d ext m1 out
      | .CO_SUSPEND => test_continue (counts co.arg) d ext m1 out
      | _ => .ok (m1, out)
    | none => .ok (m1, out)

/-- The loop `while (!coroutine_finished (s))` of `main`, at most `fuel` times
round: `none` when it has not ended by then. -/
def mainLoop (counts : Arg → Nat) (d ext : Nat) (co1 co2 : Int) :
    Nat → Machine → Trace → Option (Except Fault (Machine × Trace))
  | 0, _, _ => none
  | fuel + 1, m, out =>
    if coroutine_finished m.s ≠ 0 then some (.ok (m, out))
    else
      match resumeTest counts d ext m co1 out with
      | .error e => some (.error e)
      | .ok (m1, out1) =>
        match resumeTest counts d ext m1 co2 out1 with
        | .error e => some (.error e)
        | .ok (m2, out2) => mainLoop counts d ext co1 co2 fuel m2 out2

/-- The function `main` of `main.c` with `arg1.count = n1` and `arg2.count = n2`
(10 and 8 in the source), the `Arg` structures at addresses 1 and 2: the
machine when the loop has ended and the lines printed. -/
def mainTrace (n1 n2 d ext fuel : Nat) : Option (Except Fault (Machine × Trace)) :=
  match coroutine_create coroutine_open TEST 1 with
  | .error e => some (.error e)
  | .ok (s1, co1) =>
    match coroutine_create s1 TEST 2 with
    | .error e => some (.error e)
    | .ok (s2, co2) =>
      mainLoop (fun a => if a = 1 then n1 else n2) d ext co1 co2 fuel ⟨s2, .main⟩ []

/-- A machine in which the caller executes and only the first two slots of the
sixteen can be occupied, as in `main`. -/
def pairState (a b : Option Coroutine) (mn : Ctx) (rn : Int) (st : Nat → Byte) : Machine :=
  ⟨⟨a :: b :: List.replicate 14 none, 16, mn, rn, st⟩, .main⟩

/-- The lines that two coroutines running `test` print in turn for the counter
values from `a` on, `len` of them. -/
def alternating (a len : Nat) : Trace :=
  (List.range' a len).flatMap (fun i => [((0 : Int), i), ((1 : Int), i)])

/-! ## Lists, loops and the snapshot buffer -/

/-- A slot that holds a coroutine lies within the allocated array. -/
theorem slot_lt (s : Scheduler) (i : Nat) (co : Coroutine) (h : s.slot i = some co) :
    i < s.cos.length := by
  by_contra hlt
  have : s.cos[i]? = none := List.getElem?_eq_none (by omega)
  simp [Scheduler.slot, List.getD_eq_getElem?_getD, this] at h

/-- Reading the pointer array after one store. -/
theorem getD_set (cos : List (Option Coroutine)) (i j : Nat) (v : Option Coroutine) :
    (cos.set i v).getD j none = if j = i ∧ i < cos.length then v else cos.getD j none := by
  simp only [List.getD_eq_getElem?_getD, List.getElem?_set]
  by_cases h : i = j
  · subst h
    by_cases hl : i < cos.length
    · simp [hl]
    · have hn : cos[i]? = none := List.getElem?_eq_none (by omega)
      simp [hl, hn]
  · have h2 : ¬ j = i := fun e => h e.symm
    simp [h, h2]

/-- Reading the pointer array after `realloc`. -/
theorem getD_reallocCos (cos : List (Option Coroutine)) (n j : Nat) :
    (reallocCos cos n).getD j none = if j < n then cos.getD j none else none := by
  simp only [reallocCos, List.getD_eq_getElem?_getD]
  by_cases h1 : j < (cos.take n).length
  · rw [List.getElem?_append_left h1]
    have : j < n := by simp at h1; omega
    simp [this, List.getElem?_take]
  · rw [List.getElem?_append_right (by omega)]
    simp only [List.length_take, List.getElem?_replicate]
    simp only [List.length_take] at h1
    by_cases h2 : j < n
    · have h3 : cos.length ≤ j := by omega
      have h4 : cos[j]? = none := List.getElem?_eq_none h3
      simp [h2, h4]
      split <;> rfl
    · simp [h2]
      split <;> rfl

/-- Reading the registry after a store within the allocated array. -/
theorem slot_set (s : Scheduler) (i j : Nat) (v : Option Coroutine) (hi : i < s.cos.length) :
    ({ s with cos := s.cos.set i v } : Scheduler).slot j = if j = i then v else s.slot j := by
  simp only [Scheduler.slot, List.getD_eq_getElem?_getD, List.getElem?_set]
  by_cases h : i = j
  · subst h; simp [hi]
  · have h2 : ¬ j = i := fun e => h e.symm
    simp [h, h2]

/-- Every slot of a freshly opened scheduler is empty. -/
theorem open_slot (i : Nat) : coroutine_open.slot i = none := by
  simp only [Scheduler.slot, coroutine_open, List.getD_eq_getElem?_getD, List.getElem?_replicate]
  split <;> rfl

/-- Where the loop of `coroutine_create` stops, the slot is empty and the slots scanned before it
are occupied. -/
theorem firstFree_some (cos : List (Option Coroutine)) :
    ∀ (todo i k : Nat), firstFree cos todo i = some k →
      i ≤ k ∧ k < i + todo ∧ cos.getD k none = none ∧
        ∀ j, i ≤ j → j < k → cos.getD j none ≠ none := by
  intro todo
  induction todo with
  | zero => intro i k h; simp [firstFree] at h
  | succ t ih =>
    intro i k h
    unfold firstFree at h
    by_cases hi : cos.getD i none = none
    · rw [if_pos hi] at h
      have hk : i = k := by simpa using h
      subst hk
      exact ⟨le_refl _, by omega, hi, fun j h1 h2 => by omega⟩
    · rw [if_neg hi] at h
      obtain ⟨h1, h2, h3, h4⟩ := ih (i + 1) k h
      refine ⟨by omega, by omega, h3, fun j hj1 hj2 => ?_⟩
      by_cases hji : j = i
      · subst hji; exact hi
      · exact h4 j (by omega) hj2

/-- When the loop of `coroutine_create` runs to its end, every slot it scanned is occupied. -/
theorem firstFree_none (cos : List (Option Coroutine)) :
    ∀ (todo i : Nat), firstFree cos todo i = none →
      ∀ j, i ≤ j → j < i + todo → cos.getD j none ≠ none := by
  intro todo
  induction todo with
  | zero => intro i _ j h1 h2; omega
  | succ t ih =>
    intro i h j h1 h2
    unfold firstFree at h
    by_cases hi : cos.getD i none = none
    · rw [if_pos hi] at h; simp at h
    · rw [if_neg hi] at h
      by_cases hji : j = i
      · subst hji; exact hi
      · exact ih (i + 1) h j (by omega) (by omega)

/-- With an empty slot below the bound, the loop of `coroutine_create` stops at some index. -/
theorem firstFree_exists (cos : List (Option Coroutine)) (todo j : Nat)
    (hj : j < todo) (hfree : cos.getD j none = none) :
    ∃ k, firstFree cos todo 0 = some k := by
  cases h : firstFree cos todo 0 with
  | some k => exact ⟨k, rfl⟩
  | none => exact absurd hfree (firstFree_none cos todo 0 h j (Nat.zero_le _) (by omega))

/-- After `coroutine_create` every coroutine of the registry is one that was there, in the same
slot, or the new one; the other fields of the scheduler are as before. -/
theorem create_slots (s s1 : Scheduler) (func : CoFunc) (arg : Arg) (id : Int)
    (h : coroutine_create s func arg = .ok (s1, id)) :
    (∀ (j : Nat) (co : Coroutine), s1.slot j = some co →
        s.slot j = some co ∨ co = _coroutine_new func arg)
      ∧ s1.running = s.running ∧ s1.main = s.main ∧ s1.capacity = s.capacity
      ∧ s1.stack = s.stack := by
  unfold coroutine_create at h
  by_cases hf : func = 0
  · simp [hf] at h
  · simp only [hf, if_false] at h
    cases hff : firstFree s.cos s.capacity.toNat 0 with
    | some k =>
      simp only [hff, Except.ok.injEq, Prod.mk.injEq] at h
      obtain ⟨h1, _⟩ := h
      subst h1
      refine ⟨?_, rfl, rfl, rfl, rfl⟩
      intro j co hj
      simp only [Scheduler.slot, getD_set] at hj
      split at hj
      · right; exact (Option.some.inj hj).symm
      · left; exact hj
    | none =>
      simp only [hff, Except.ok.injEq, Prod.mk.injEq] at h
      obtain ⟨h1, _⟩ := h
      subst h1
      refine ⟨?_, rfl, rfl, rfl, rfl⟩
      intro j co hj
      simp only [Scheduler.slot, getD_set, getD_reallocCos] at hj
      split at hj
      · right; exact (Option.some.inj hj).symm
      · split at hj
        · left; exact hj
        · exact absurd hj (by simp)

/-- The loop of `coroutine_finished` runs to its end exactly when every slot it scans is empty or
holds a coroutine in state `CO_DONE`. -/
theorem finishedFrom_iff (cos : List (Option Coroutine)) :
    ∀ (todo i : Nat), finishedFrom cos todo i = true ↔
      ∀ j, i ≤ j → j < i + todo →
        (cos.getD j none = none ∨ ∃ co, cos.getD j none = some co ∧ co.state = .CO_DONE) := by
  intro todo
  induction todo with
  | zero =>
    intro i
    simp only [finishedFrom, true_iff]
    intro j h1 h2; omega
  | succ t ih =>
    intro i
    have hstep : (∀ j, i ≤ j → j < i + (t + 1) →
          (cos.getD j none = none ∨ ∃ co, cos.getD j none = some co ∧ co.state = .CO_DONE)) ↔
        ((cos.getD i none = none ∨ ∃ co, cos.getD i none = some co ∧ co.state = .CO_DONE)
          ∧ ∀ j, i + 1 ≤ j → j < i + 1 + t →
            (cos.getD j none = none ∨ ∃ co, cos.getD j none = some co ∧ co.state = .CO_DONE)) := by
      constructor
      · intro h
        exact ⟨h i (le_refl _) (by omega), fun j h1 h2 => h j (by omega) (by omega)⟩
      · intro ⟨h0, h⟩ j h1 h2
        by_cases hji : j = i
        · subst hji; exact h0
        · exact h j (by omega) (by omega)
    rw [hstep, ← ih (i + 1)]
    cases hc : cos.getD i none with
    | none =>
      have hunf : finishedFrom cos (t + 1) i = finishedFrom cos t (i + 1) := by
        rw [finishedFrom, hc]
      rw [hunf]
      simp
    | some co =>
      by_cases hd : co.state = .CO_DONE
      · have hunf : finishedFrom cos (t + 1) i = finishedFrom cos t (i + 1) := by
          rw [finishedFrom, hc]
          simp [hd]
        rw [hunf]
        simp [hd]
      · have hunf : finishedFrom cos (t + 1) i = false := by
          rw [finishedFrom, hc]
          simp [hd]
        rw [hunf]
        simp [hd]

theorem readStack_length (stack : Nat → Byte) (lo n : Nat) :
    (readStack stack lo n).length = n := by
  simp [readStack]

theorem reallocBytes_length (buf : List Byte) (n : Nat) : (reallocBytes buf n).length = n := by
  simp only [reallocBytes, List.length_append, List.length_take, List.length_replicate]
  omega

/-- With an extent between zero and the stack size and a buffer as long as the recorded size,
`_save_stack` succeeds and stores the extent and the bytes of the stack top. -/
theorem save_stack_ok (co : Coroutine) (stack : Nat → Byte) (n : Int)
    (hn : 0 ≤ n ∧ n ≤ (DEFAULT_STACK_SZIE : Int))
    (hbuf : co.size.toNat ≤ co.stack.length) :
    ∃ buf : List Byte, n.toNat ≤ buf.length ∧
      _save_stack co stack n = .ok { co with
        size := n
        stack := readStack stack (DEFAULT_STACK_SZIE - n.toNat) n.toNat ++ buf.drop n.toNat } := by
  refine ⟨if co.size < n then reallocBytes co.stack n.toNat else co.stack, ?_, ?_⟩
  · split
    · rw [reallocBytes_length]
    · omega
  · have hlen : ¬ (if co.size < n then reallocBytes co.stack n.toNat else co.stack).length
        < n.toNat := by
      split
      · rw [reallocBytes_length]; omega
      · omega
    have hn0 : ¬ n < 0 := by omega
    simp only [_save_stack, hn.2, not_true_eq_false, if_false, hn0, hlen, or_self]

/-- What a successful `_save_stack` leaves in the coroutine. -/
theorem save_stack_result (co co1 : Coroutine) (stack : Nat → Byte) (n : Int)
    (h : _save_stack co stack n = .ok co1) :
    0 ≤ n ∧ n ≤ (DEFAULT_STACK_SZIE : Int) ∧ co1.size = n ∧ n.toNat ≤ co1.stack.length
      ∧ co1.func = co.func ∧ co1.arg = co.arg := by
  unfold _save_stack at h
  by_cases hle : n ≤ (DEFAULT_STACK_SZIE : Int)
  · simp only [hle, not_true_eq_false, if_false] at h
    generalize (if co.size < n then reallocBytes co.stack n.toNat else co.stack) = buf at h
    by_cases hbad : n < 0 ∨ buf.length < n.toNat
    · rw [if_pos hbad] at h
      exact absurd h (by simp)
    · rw [if_neg hbad] at h
      cases h
      refine ⟨by omega, hle, rfl, ?_, rfl, rfl⟩
      simp only [List.length_append, readStack_length]
      omega
  · simp [hle] at h

/-! ## The registry while only the caller resumes -/

theorem callerInv_start : CallerInv start := by
  refine ⟨?_, fun _ => ⟨?_, ?_, ?_⟩⟩
  · intro i co h; simp [start, open_slot] at h
  · intro c h; simp [start] at h
  · intro _; left; rfl
  · intro i co h; simp [start, open_slot] at h

theorem callerInv_create (m : Machine) (s1 : Scheduler) (func : CoFunc) (arg : Arg) (id : Int)
    (hinv : CallerInv m) (h : coroutine_create m.s func arg = .ok (s1, id)) :
    CallerInv { m with s := s1 } := by
  obtain ⟨hslots, hrun, hmain, _, _⟩ := create_slots m.s s1 func arg id h
  obtain ⟨h1, h2⟩ := hinv
  refine ⟨?_, fun hc => ?_⟩
  · intro i co hi hst
    rcases hslots i co hi with hold | hnew
    · exact h1 i co hold hst
    · subst hnew; simp [_coroutine_new] at hst
  · obtain ⟨hB, hC, hD⟩ := h2 hc
    refine ⟨?_, ?_, ?_⟩
    · intro c hcur
      simpa [hrun, hmain] using hB c hcur
    · intro hcur
      simpa [hrun, hmain] using hC hcur
    · intro i co hi hst
      rcases hslots i co hi with hold | hnew
      · exact hD i co hold hst
      · subst hnew; simp [_coroutine_new] at hst

theorem callerInv_ret (m : Machine) (c : Int) (hinv : CallerInv m) (hcur : m.cur = .co c) :
    CallerInv (_coroutine_entry_return m c) := by
  obtain ⟨h1, h2⟩ := hinv
  obtain ⟨hB, _, hD⟩ := h2 (by rw [hcur]; simp)
  obtain ⟨_, hmain, hc0⟩ := hB c hcur
  have hold : ∀ (i : Nat) (co : Coroutine), (_coroutine_entry_return m c).s.slot i = some co →
      i ≠ c.toNat ∧ m.s.slot i = some co := by
    intro i co hi
    simp only [_coroutine_entry_return, Scheduler.slot, getD_set] at hi
    split at hi
    · exact absurd hi (by simp)
    · rename_i hne
      refine ⟨fun e => ?_, hi⟩
      subst e
      exact hne ⟨rfl, slot_lt m.s _ co hi⟩
  refine ⟨?_, fun _ => ⟨?_, ?_, ?_⟩⟩
  · intro i co hi hst
    obtain ⟨hne, hi2⟩ := hold i co hi
    have := h1 i co hi2 hst
    rw [hcur] at this
    have hic : c = (i : Int) := by simpa using this
    exact absurd (by omega) hne
  · intro c2 hc2
    simp [_coroutine_entry_return, hmain] at hc2
  · intro _; right; rfl
  · intro i co hi hst
    exact hD i co (hold i co hi).2 hst

theorem callerInv_resume (m m1 : Machine) (cid : Int) (hinv : CallerInv m)
    (hcur : m.cur = .main) (h : coroutine_resume m cid = .ok m1) : CallerInv m1 := by
  obtain ⟨h1, h2⟩ := hinv
  obtain ⟨_, _, hD⟩ := h2 (by rw [hcur]; simp)
  have hnorun : ∀ (i : Nat) (co : Coroutine), m.s.slot i = some co → co.state ≠ .CO_RUNNING := by
    intro i co hi hst
    have := h1 i co hi hst
    rw [hcur] at this
    exact absurd this (by simp)
  unfold coroutine_resume at h
  split at h
  · exact absurd h (by simp)
  · rename_i hr
    have hr : cid ≥ 0 ∧ cid < m.s.capacity := by simpa using hr
    have hcid : ((cid.toNat : Nat) : Int) = cid := Int.toNat_of_nonneg hr.1
    split at h
    · cases h; exact ⟨h1, h2⟩
    · rename_i co hs
      have hlen := slot_lt m.s _ co hs
      -- the common shape of the two switching cases
      have key : ∀ (co1 : Coroutine) (s1 : Scheduler) (k : Ctx),
          co1.state = .CO_RUNNING → k = .co cid →
          s1.cos = m.s.cos.set cid.toNat (some co1) → s1.running = cid → s1.main = m.cur →
          CallerInv { s := s1, cur := k } := by
        intro co1 s1 k hst1 hk hcos hrun hmn
        have hsl : ∀ j, s1.slot j = if j = cid.toNat then some co1 else m.s.slot j := by
          intro j
          simp only [Scheduler.slot, hcos, getD_set]
          by_cases hj : j = cid.toNat
          · simp [hj, hlen]
          · simp [hj]
        refine ⟨?_, fun _ => ⟨?_, ?_, ?_⟩⟩
        · intro i co2 hi hst
          rw [hsl i] at hi
          split at hi
          · rename_i hic; subst hk; simp [hic, hcid]
          · exact absurd hst (hnorun i co2 hi)
        · intro c hc
          have : c = cid := by
            have hc' : k = .co c := hc
            rw [hk] at hc'
            simpa using hc'.symm
          subst this
          exact ⟨hrun, by rw [hmn, hcur], hr.1⟩
        · intro hc
          have hc' : k = .main := hc
          rw [hk] at hc'
          exact absurd hc' (by simp)
        · intro i co2 hi hst
          rw [hsl i] at hi
          split at hi
          · have := Option.some.inj hi
            subst this
            rw [hst1] at hst
            exact absurd hst (by simp)
          · exact hD i co2 hi hst
      split at h
      · cases h
        exact key _ _ _ rfl rfl rfl rfl rfl
      · rename_i hsus
        split at h
        · exact absurd h (by simp)
        · cases h
          have hctx := hD cid.toNat co hs hsus
          rw [hcid] at hctx
          exact key _ _ _ rfl hctx rfl rfl rfl
      · cases h; exact ⟨h1, h2⟩

theorem callerInv_yield (m m1 : Machine) (n : Int) (hinv : CallerInv m)
    (hnn : m.cur ≠ .null) (h : coroutine_yield m n = .ok m1) : CallerInv m1 := by
  obtain ⟨h1, h2⟩ := hinv
  obtain ⟨hB, hC, hD⟩ := h2 hnn
  unfold coroutine_yield at h
  simp only at h
  split at h
  · exact absurd h (by simp)
  · rename_i hr
    have hr : m.s.running ≥ 0 ∧ m.s.running < m.s.capacity := by simpa using hr
    have hcid : ((m.s.running.toNat : Nat) : Int) = m.s.running := Int.toNat_of_nonneg hr.1
    split at h
    · exact absurd h (by simp)
    · rename_i co hs
      have hlen := slot_lt m.s _ co hs
      split at h
      · exact absurd h (by simp)
      · rename_i co1 _
        cases h
        have hsl : ∀ j, Scheduler.slot
            { m.s with
              cos := m.s.cos.set m.s.running.toNat
                (some { co1 with state := .CO_SUSPEND, ctx := m.cur })
              running := -1 } j
            = if j = m.s.running.toNat
                then some { co1 with state := .CO_SUSPEND, ctx := m.cur }
                else m.s.slot j := by
          intro j
          simp only [Scheduler.slot, getD_set]
          by_cases hj : j = m.s.running.toNat
          · simp [hj, hlen]
          · simp [hj]
        refine ⟨?_, fun hnull => ⟨?_, ?_, ?_⟩⟩
        · intro i co2 hi hst
          rw [hsl i] at hi
          split at hi
          · have := Option.some.inj hi
            subst this
            exact absurd hst (by simp)
          · rename_i hne
            have hcur := h1 i co2 hi hst
            obtain ⟨hrun, _, _⟩ := hB _ hcur
            exact absurd (by omega) hne
        · intro c hc
          have hmain : m.s.main = .co c := hc
          cases hcur : m.cur with
          | null => exact absurd hcur hnn
          | main =>
            rcases hC hcur with hm | hm
            · rw [hm] at hmain; exact absurd hmain (by simp)
            · omega
          | co c2 =>
            rw [(hB c2 hcur).2.1] at hmain
            exact absurd hmain (by simp)
        · intro _; right; rfl
        · intro i co2 hi hst
          rw [hsl i] at hi
          split at hi
          · rename_i hic
            have := Option.some.inj hi
            subst this
            cases hcur : m.cur with
            | null => exact absurd hcur hnn
            | main =>
              rcases hC hcur with hm | hm
              · exact absurd (show m.s.main = .null from hm) hnull
              · omega
            | co c2 =>
              have hrun := (hB c2 hcur).1
              show Ctx.co c2 = Ctx.co (i : Int)
              rw [hic, hcid, hrun]
          · exact hD i co2 hi hst

/-- One step keeps `CallerInv`, provided a `coroutine_resume` is called by the caller. -/
theorem callerInv_step (m m1 : Machine) (c : Call) (hinv : CallerInv m)
    (hcaller : ∀ cid, c = .resume cid → m.cur = .main) (h : step m c = .ok m1) :
    CallerInv m1 := by
  cases c with
  | create func arg =>
    simp only [step] at h
    split at h
    · exact absurd h (by simp)
    · split at h
      · cases h
        rename_i s1 id hc
        exact callerInv_create m s1 func arg id hinv hc
      · exact absurd h (by simp)
  | resume cid =>
    have hcur := hcaller cid rfl
    simp only [step, hcur] at h
    exact callerInv_resume m m1 cid hinv hcur h
  | yield n =>
    simp only [step] at h
    split at h
    · exact absurd h (by simp)
    · rename_i hne
      exact callerInv_yield m m1 n hinv (fun e => hne e) h
  | ret =>
    simp only [step] at h
    split at h
    · rename_i cid hcur
      cases h
      exact callerInv_ret m cid hinv hcur
    · exact absurd h (by simp)
    · exact absurd h (by simp)
  | store off b =>
    simp only [step] at h
    split at h
    · exact absurd h (by simp)
    · split at h
      · cases h; exact hinv
      · exact absurd h (by simp)

/-- A run in which only the caller resumes keeps `CallerInv`. -/
theorem callerInv_run (calls : List Call) :
    ∀ (m m1 : Machine), CallerInv m → callerResumes m calls = true →
      run m calls = .ok m1 → CallerInv m1 := by
  induction calls with
  | nil =>
    intro m m1 hinv _ h
    simp only [run, Except.ok.injEq] at h
    subst h; exact hinv
  | cons c cs ih =>
    intro m m1 hinv hcaller h
    simp only [run] at h
    simp only [callerResumes, Bool.and_eq_true] at hcaller
    cases hs : step m c with
    | error e => simp [hs] at h
    | ok m2 =>
      simp only [hs] at h hcaller
      refine ih m2 m1 (callerInv_step m m2 c hinv ?_ hs) hcaller.2 h
      intro cid hc
      subst hc
      simpa using hcaller.1

/-! ## Snapshot bounds along every run -/

theorem snapInv_open : SnapInv coroutine_open := by
  intro i co h
  simp [open_slot] at h

theorem snapInv_create (s s1 : Scheduler) (func : CoFunc) (arg : Arg) (id : Int)
    (hinv : SnapInv s) (h : coroutine_create s func arg = .ok (s1, id)) : SnapInv s1 := by
  intro i co hi
  rcases (create_slots s s1 func arg id h).1 i co hi with hold | hnew
  · exact hinv i co hold
  · subst hnew
    simp [_coroutine_new]

theorem snapInv_ret (m : Machine) (c : Int) (hinv : SnapInv m.s) :
    SnapInv (_coroutine_entry_return m c).s := by
  intro i co hi
  simp only [_coroutine_entry_return, Scheduler.slot, getD_set] at hi
  split at hi
  · exact absurd hi (by simp)
  · exact hinv i co hi

theorem snapInv_resume (m m1 : Machine) (cid : Int) (hinv : SnapInv m.s)
    (h : coroutine_resume m cid = .ok m1) : SnapInv m1.s := by
  unfold coroutine_resume at h
  split at h
  · exact absurd h (by simp)
  · split at h
    · cases h; exact hinv
    · rename_i co hs
      have hco := hinv _ co hs
      split at h
      · cases h
        intro i co2 hi
        simp only [Scheduler.slot, getD_set] at hi
        split at hi
        · cases hi; exact hco
        · exact hinv i co2 hi
      · split at h
        · exact absurd h (by simp)
        · cases h
          intro i co2 hi
          simp only [Scheduler.slot, getD_set] at hi
          split at hi
          · cases hi; exact hco
          · exact hinv i co2 hi
      · cases h; exact hinv

theorem snapInv_yield (m m1 : Machine) (n : Int) (hinv : SnapInv m.s)
    (h : coroutine_yield m n = .ok m1) : SnapInv m1.s := by
  unfold coroutine_yield at h
  simp only at h
  split at h
  · exact absurd h (by simp)
  · split at h
    · exact absurd h (by simp)
    · rename_i co hs
      split at h
      · exact absurd h (by simp)
      · rename_i co1 hsave
        obtain ⟨h0, hle, hsz, hlen, _, _⟩ := save_stack_result co co1 m.s.stack n hsave
        cases h
        intro i co2 hi
        simp only [Scheduler.slot, getD_set] at hi
        split at hi
        · cases hi
          exact ⟨by simp [hsz, h0], by simp [hsz, hle], by simp [hsz, hlen]⟩
        · exact hinv i co2 hi

theorem snapInv_step (m m1 : Machine) (c : Call) (hinv : SnapInv m.s)
    (h : step m c = .ok m1) : SnapInv m1.s := by
  cases c with
  | create func arg =>
    simp only [step] at h
    split at h
    · exact absurd h (by simp)
    · split at h
      · cases h
        rename_i s1 id hc
        exact snapInv_create m.s s1 func arg id hinv hc
      · exact absurd h (by simp)
  | resume cid =>
    simp only [step] at h
    split at h
    · exact absurd h (by simp)
    · exact snapInv_resume m m1 cid hinv h
  | yield n =>
    simp only [step] at h
    split at h
    · exact absurd h (by simp)
    · exact snapInv_yield m m1 n hinv h
  | ret =>
    simp only [step] at h
    split at h
    · cases h
      exact snapInv_ret m _ hinv
    · exact absurd h (by simp)
    · exact absurd h (by simp)
  | store off b =>
    simp only [step] at h
    split at h
    · exact absurd h (by simp)
    · split at h
      · cases h; exact hinv
      · exact absurd h (by simp)

/-- Every run keeps `SnapInv`. -/
theorem snapInv_run (calls : List Call) :
    ∀ (m m1 : Machine), SnapInv m.s → run m calls = .ok m1 → SnapInv m1.s := by
  induction calls with
  | nil =>
    intro m m1 hinv h
    simp only [run, Except.ok.injEq] at h
    subst h; exact hinv
  | cons c cs ih =>
    intro m m1 hinv h
    simp only [run] at h
    cases hs : step m c with
    | error e => simp [hs] at h
    | ok m2 =>
      simp only [hs] at h
      exact ih m2 m1 (snapInv_step m m2 c hinv hs) h

/-! ## Further lemmas -/

/-- When every slot below the bound is occupied, the loop of `coroutine_create` runs to its end. -/
theorem firstFree_full (cos : List (Option Coroutine)) (todo : Nat)
    (hfull : ∀ j, j < todo → cos.getD j none ≠ none) : firstFree cos todo 0 = none := by
  cases h : firstFree cos todo 0 with
  | none => rfl
  | some k =>
    obtain ⟨_, h2, h3, _⟩ := firstFree_some cos todo 0 k h
    exact absurd h3 (hfull k (by omega))

/-- With an id within the capacity, `coroutine_resume` fails no assertion. -/
theorem resume_in_range_no_assertion (m : Machine) (cid : Int)
    (hr : cid ≥ 0 ∧ cid < m.s.capacity) : coroutine_resume m cid ≠ .error .assertion := by
  unfold coroutine_resume
  rw [if_neg (not_not_intro hr)]
  split
  · simp
  · split
    · simp
    · split <;> simp
    · simp

/-- The bytes read from the shared stack, one by one. -/
theorem readStack_getD (stack : Nat → Byte) (lo n k : Nat) (hk : k < n) :
    (readStack stack lo n).getD k 0 = stack (lo + k) := by
  simp [readStack, List.getD_eq_getElem?_getD, List.getElem?_map, List.getElem?_range hk]

/-- Writing back bytes that were read at the same offset. -/
theorem writeStack_readStack (stack stack0 : Nat → Byte) (lo n a : Nat) :
    writeStack stack lo (readStack stack0 lo n) a
      = if lo ≤ a ∧ a < lo + n then stack0 a else stack a := by
  unfold writeStack
  rw [readStack_length]
  by_cases h : lo ≤ a ∧ a < lo + n
  · rw [if_pos h, if_pos h, readStack_getD _ _ _ _ (by omega)]
    congr 1
    omega
  · rw [if_neg h, if_neg h]

/-- After `_save_stack` the buffer starts with the bytes of the stack top. -/
theorem save_stack_take (co co1 : Coroutine) (stack : Nat → Byte) (n : Int)
    (h : _save_stack co stack n = .ok co1) :
    co1.stack.take n.toNat = readStack stack (DEFAULT_STACK_SZIE - n.toNat) n.toNat := by
  unfold _save_stack at h
  by_cases hle : n ≤ (DEFAULT_STACK_SZIE : Int)
  · simp only [hle, not_true_eq_false, if_false] at h
    generalize (if co.size < n then reallocBytes co.stack n.toNat else co.stack) = buf at h
    by_cases hbad : n < 0 ∨ buf.length < n.toNat
    · rw [if_pos hbad] at h
      exact absurd h (by simp)
    · rw [if_neg hbad] at h
      cases h
      exact List.take_left' (readStack_length _ _ _)
  · simp [hle] at h

/-- Successive `_save_stack` calls with extents between zero and the stack size succeed and keep
the recorded size within the buffer and the stack. -/
theorem saveAll_bounds (calls : List ((Nat → Byte) × Int)) :
    ∀ co : Coroutine,
      (0 ≤ co.size ∧ co.size ≤ (DEFAULT_STACK_SZIE : Int) ∧ co.size.toNat ≤ co.stack.length) →
      (∀ c ∈ calls, 0 ≤ c.2 ∧ c.2 ≤ (DEFAULT_STACK_SZIE : Int)) →
      ∃ co1 : Coroutine, saveAll co calls = .ok co1
        ∧ 0 ≤ co1.size ∧ co1.size ≤ (DEFAULT_STACK_SZIE : Int)
        ∧ co1.size.toNat ≤ co1.stack.length := by
  induction calls with
  | nil =>
    intro co hco _
    exact ⟨co, rfl, hco⟩
  | cons c rest ih =>
    intro co hco hn
    obtain ⟨stack, n⟩ := c
    have hn0 : 0 ≤ n ∧ n ≤ (DEFAULT_STACK_SZIE : Int) := hn (stack, n) (List.mem_cons_self _ _)
    obtain ⟨buf, hlen, hsave⟩ := save_stack_ok co stack n hn0 hco.2.2
    obtain ⟨h0, hle, hsz, hl, _, _⟩ := save_stack_result co _ stack n hsave
    obtain ⟨co1, h1, h2⟩ := ih _ ⟨by rw [hsz]; exact h0, by rw [hsz]; exact hle,
      by rw [hsz]; exact hl⟩ (fun c hc => hn c (List.mem_cons_of_mem _ hc))
    refine ⟨co1, ?_, h2⟩
    simp only [saveAll, hsave]
    exact h1

/-- Sixteen creates on a freshly opened scheduler give the registry of `fullRegistry`. -/
theorem fullRegistry_reached :
    ∃ m : Machine, run start (List.replicate 16 (Call.create 1 0)) = .ok m
      ∧ m.s.cos = fullRegistry.cos ∧ m.s.capacity = fullRegistry.capacity :=
  ⟨_, rfl, rfl, rfl⟩

/-- The assertion of `_save_stack` fails exactly when the extent exceeds the stack size. -/
theorem save_stack_assertion (co : Coroutine) (stack : Nat → Byte) (n : Int) :
    _save_stack co stack n = .error .assertion ↔ (DEFAULT_STACK_SZIE : Int) < n := by
  unfold _save_stack
  by_cases hle : n ≤ (DEFAULT_STACK_SZIE : Int)
  · have hn : ¬ (DEFAULT_STACK_SZIE : Int) < n := by omega
    simp only [hle, not_true_eq_false, if_false, hn, iff_false]
    generalize (if co.size < n then reallocBytes co.stack n.toNat else co.stack) = buf
    by_cases hbad : n < 0 ∨ buf.length < n.toNat
    · rw [if_pos hbad]; simp
    · rw [if_neg hbad]; simp
  · have hn : (DEFAULT_STACK_SZIE : Int) < n := by omega
    simp [hle, hn]

/-- What `coroutine_yield` does after `coroutine_open` and one create, by the extent measured. -/
theorem yield_oneCreated (n : Int) :
    coroutine_yield oneCreated n
      = match _save_stack (_coroutine_new 1 0) (fun _ => 0) n with
        | .error e => .error e
        | .ok co1 =>
          .ok ⟨⟨some { co1 with state := .CO_SUSPEND, ctx := .main } :: List.replicate 15 none,
              16, .null, -1, fun _ => 0⟩, .null⟩ := by
  rfl

/-- A run of two sequences of steps, one after the other. -/
theorem run_append (a b : List Call) :
    ∀ m : Machine, run m (a ++ b)
      = match run m a with
        | .ok m1 => run m1 b
        | .error e => .error e := by
  induction a with
  | nil => intro m; rfl
  | cons c cs ih =>
    intro m
    simp only [List.cons_append, run]
    cases step m c with
    | ok m1 => exact ih m1
    | error e => rfl

/-- Stores of the running code change the shared stack and nothing else. -/
theorem run_stores (body : List Call) :
    ∀ m : Machine, m.cur ≠ .null → (∀ c ∈ body, isStore c = true) →
      ∃ stack1 : Nat → Byte, run m body = .ok ⟨{ m.s with stack := stack1 }, m.cur⟩ := by
  induction body with
  | nil => intro m _ _; exact ⟨m.s.stack, rfl⟩
  | cons c cs ih =>
    intro m hcur hb
    have hc := hb c (List.mem_cons_self _ _)
    cases c with
    | store off b =>
      have hoff : off < DEFAULT_STACK_SZIE := by simpa [isStore] using hc
      have hstep : step m (.store off b)
          = .ok ⟨{ m.s with stack := fun a => if a = off then b else m.s.stack a }, m.cur⟩ := by
        cases hk : m.cur with
        | null => exact absurd hk hcur
        | main => simp [step, hk, hoff]
        | co c => simp [step, hk, hoff]
      obtain ⟨st, hst⟩ := ih ⟨{ m.s with stack := fun a => if a = off then b else m.s.stack a },
        m.cur⟩ hcur (fun c hc => hb c (List.mem_cons_of_mem _ hc))
      exact ⟨st, by simp only [run, hstep]; exact hst⟩
    | create f a => simp [isStore] at hc
    | resume cid => simp [isStore] at hc
    | yield n => simp [isStore] at hc
    | ret => simp [isStore] at hc

theorem step_create_ok (m m1 : Machine) (func : CoFunc) (arg : Arg)
    (h : step m (.create func arg) = .ok m1) :
    ∃ (s1 : Scheduler) (id : Int),
      coroutine_create m.s func arg = .ok (s1, id) ∧ m1 = { m with s := s1 } := by
  simp only [step] at h
  split at h
  · exact absurd h (by simp)
  · split at h
    · cases h
      rename_i s1 id hc
      exact ⟨s1, id, hc, rfl⟩
    · exact absurd h (by simp)

theorem step_store_ok (m m1 : Machine) (off : Nat) (b : Byte)
    (h : step m (.store off b) = .ok m1) :
    m1 = { m with s := { m.s with stack := fun a => if a = off then b else m.s.stack a } } := by
  simp only [step] at h
  split at h
  · exact absurd h (by simp)
  · split at h
    · cases h; rfl
    · exact absurd h (by simp)

theorem step_ret_ok (m m1 : Machine) (h : step m .ret = .ok m1) :
    ∃ cid : Int, m.cur = .co cid ∧ m1 = _coroutine_entry_return m cid := by
  simp only [step] at h
  split at h
  · rename_i cid hcur
    cases h
    exact ⟨cid, hcur, rfl⟩
  · exact absurd h (by simp)
  · exact absurd h (by simp)

theorem step_yield_ok (m m1 : Machine) (n : Int) (h : step m (.yield n) = .ok m1) :
    coroutine_yield m n = .ok m1 := by
  simp only [step] at h
  split at h
  · exact absurd h (by simp)
  · exact h

theorem step_resume_ok (m m1 : Machine) (cid : Int) (h : step m (.resume cid) = .ok m1) :
    coroutine_resume m cid = .ok m1 := by
  simp only [step] at h
  split at h
  · exact absurd h (by simp)
  · exact h

/-- A flow that was switched to through a zeroed context takes no step. -/
theorem step_null (m m1 : Machine) (c : Call) (hnull : m.cur = .null) :
    step m c ≠ .ok m1 := by
  cases c <;> simp [step, hnull]

/-- What `coroutine_resume` stores when it switches to a dormant or suspended coroutine. -/
theorem resume_switch (m : Machine) (cid : Int) (co : Coroutine)
    (hr : 0 ≤ cid ∧ cid < m.s.capacity) (hs : m.s.slot cid.toNat = some co)
    (hst : co.state = .CO_READY ∨ co.state = .CO_SUSPEND)
    (hsnap : co.state = .CO_SUSPEND → 0 ≤ co.size ∧ co.size ≤ (DEFAULT_STACK_SZIE : Int)
      ∧ co.size.toNat ≤ co.stack.length) :
    ∃ stack1 : Nat → Byte,
      coroutine_resume m cid = .ok
        ⟨⟨m.s.cos.set cid.toNat (some ⟨co.func, co.arg, .CO_RUNNING,
              if co.state = .CO_READY then .co cid else co.ctx, co.size, co.stack⟩),
            m.s.capacity, m.cur, cid, stack1⟩,
          if co.state = .CO_READY then .co cid else co.ctx⟩ := by
  have hr2 : cid ≥ 0 ∧ cid < m.s.capacity := hr
  unfold coroutine_resume
  simp only [hr2, and_self, not_true_eq_false, if_false]
  rw [hs]
  rcases hst with hst | hst
  · simp only [hst]
    exact ⟨_, rfl⟩
  · have hsn := hsnap hst
    have hok : ¬ (co.size < 0 ∨ (DEFAULT_STACK_SZIE : Int) < co.size
        ∨ co.stack.length < co.size.toNat) := by omega
    simp only [hst, hok, if_false]
    refine ⟨writeStack m.s.stack (DEFAULT_STACK_SZIE - co.size.toNat)
      (co.stack.take co.size.toNat), ?_⟩
    simp

/-- What `coroutine_yield` stores when it switches back. -/
theorem yield_switch (m : Machine) (n : Int) (co : Coroutine)
    (hr : 0 ≤ m.s.running ∧ m.s.running < m.s.capacity)
    (hs : m.s.slot m.s.running.toNat = some co)
    (hn : 0 ≤ n ∧ n ≤ (DEFAULT_STACK_SZIE : Int))
    (hbuf : co.size.toNat ≤ co.stack.length) :
    ∃ buf : List Byte,
      coroutine_yield m n = .ok
        ⟨⟨m.s.cos.set m.s.running.toNat (some ⟨co.func, co.arg, .CO_SUSPEND, m.cur, n, buf⟩),
            m.s.capacity, m.s.main, -1, m.s.stack⟩, m.s.main⟩ := by
  obtain ⟨buf, _, hsave⟩ := save_stack_ok co m.s.stack n hn hbuf
  have hr2 : m.s.running ≥ 0 ∧ m.s.running < m.s.capacity := hr
  refine ⟨readStack m.s.stack (DEFAULT_STACK_SZIE - n.toNat) n.toNat ++ buf.drop n.toNat, ?_⟩
  unfold coroutine_yield
  simp only [hr2, and_self, not_true_eq_false, if_false, hs, hsave]

theorem resume_ready_eq (m : Machine) (cid : Int) (co : Coroutine)
    (hr : 0 ≤ cid ∧ cid < m.s.capacity) (hs : m.s.slot cid.toNat = some co)
    (hst : co.state = .CO_READY) :
    coroutine_resume m cid = .ok
      ⟨⟨m.s.cos.set cid.toNat (some ⟨co.func, co.arg, .CO_RUNNING, .co cid, co.size, co.stack⟩),
          m.s.capacity, m.cur, cid, m.s.stack⟩, .co cid⟩ := by
  have hr2 : cid ≥ 0 ∧ cid < m.s.capacity := hr
  unfold coroutine_resume
  simp only [hr2, and_self, not_true_eq_false, if_false, hs, hst]

theorem resume_suspended_eq (m : Machine) (cid : Int) (co : Coroutine)
    (hr : 0 ≤ cid ∧ cid < m.s.capacity) (hs : m.s.slot cid.toNat = some co)
    (hst : co.state = .CO_SUSPEND)
    (hsnap : 0 ≤ co.size ∧ co.size ≤ (DEFAULT_STACK_SZIE : Int)
      ∧ co.size.toNat ≤ co.stack.length) :
    coroutine_resume m cid = .ok
      ⟨⟨m.s.cos.set cid.toNat (some ⟨co.func, co.arg, .CO_RUNNING, co.ctx, co.size, co.stack⟩),
          m.s.capacity, m.cur, cid,
          writeStack m.s.stack (DEFAULT_STACK_SZIE - co.size.toNat)
            (co.stack.take co.size.toNat)⟩, co.ctx⟩ := by
  have hr2 : cid ≥ 0 ∧ cid < m.s.capacity := hr
  have hok : ¬ (co.size < 0 ∨ (DEFAULT_STACK_SZIE : Int) < co.size
      ∨ co.stack.length < co.size.toNat) := by omega
  unfold coroutine_resume
  simp only [hr2, and_self, not_true_eq_false, if_false, hs, hst, hok]

theorem yield_eq (m : Machine) (n : Int) (co : Coroutine)
    (hr : 0 ≤ m.s.running ∧ m.s.running < m.s.capacity)
    (hs : m.s.slot m.s.running.toNat = some co)
    (hn : 0 ≤ n ∧ n ≤ (DEFAULT_STACK_SZIE : Int))
    (hbuf : co.size.toNat ≤ co.stack.length) :
    ∃ rest : List Byte,
      coroutine_yield m n = .ok
        ⟨⟨m.s.cos.set m.s.running.toNat (some ⟨co.func, co.arg, .CO_SUSPEND, m.cur, n,
              readStack m.s.stack (DEFAULT_STACK_SZIE - n.toNat) n.toNat ++ rest⟩),
            m.s.capacity, m.s.main, -1, m.s.stack⟩, m.s.main⟩ := by
  obtain ⟨buf, _, hsave⟩ := save_stack_ok co m.s.stack n hn hbuf
  have hr2 : m.s.running ≥ 0 ∧ m.s.running < m.s.capacity := hr
  refine ⟨buf.drop n.toNat, ?_⟩
  unfold coroutine_yield
  simp only [hr2, and_self, not_true_eq_false, if_false, hs, hsave]

/-- The loop of `coroutine_create` stops at an empty slot below which every slot is occupied. -/
theorem firstFree_lowest (cos : List (Option Coroutine)) (todo k : Nat) (hk : k < todo)
    (hfree : cos.getD k none = none) (hlow : ∀ j, j < k → cos.getD j none ≠ none) :
    firstFree cos todo 0 = some k := by
  obtain ⟨i, hi⟩ := firstFree_exists cos todo k hk hfree
  obtain ⟨_, _, h3, h4⟩ := firstFree_some cos todo 0 i hi
  have hik : i = k := by
    rcases Nat.lt_trichotomy i k with h | h | h
    · exact absurd h3 (hlow i h)
    · exact h
    · exact absurd hfree (h4 k (Nat.zero_le _) h)
  rw [hi, hik]

theorem getD_take (l : List Byte) (n j : Nat) (h : j < n) :
    (l.take n).getD j 0 = l.getD j 0 := by
  simp [List.getD_eq_getElem?_getD, List.getElem?_take, h]

theorem getD_readStack_append (st : Nat → Byte) (lo n j : Nat) (rest : List Byte)
    (h : j < n) : (readStack st lo n ++ rest).getD j 0 = st (lo + j) := by
  rw [List.getD_append _ _ _ _ (by rw [readStack_length]; exact h), readStack_getD _ _ _ _ h]

/-- Where `coroutine_resume` leaves the saved contexts and the control. -/
theorem resume_flows (m m1 : Machine) (cid : Int) (h : coroutine_resume m cid = .ok m1) :
    m1 = m ∨ (m1.s.main = m.cur
      ∧ (m1.cur = .co cid ∨ ∃ (i0 : Nat) (c0 : Coroutine), m.s.slot i0 = some c0 ∧ m1.cur = c0.ctx)
      ∧ ∀ (j : Nat) (cj : Coroutine), m1.s.slot j = some cj →
          cj.ctx = .co cid
            ∨ ∃ (i0 : Nat) (c0 : Coroutine), m.s.slot i0 = some c0 ∧ cj.ctx = c0.ctx) := by
  unfold coroutine_resume at h
  split at h
  · exact absurd h (by simp)
  · split at h
    · cases h; exact Or.inl rfl
    · rename_i co hs
      split at h
      · cases h
        refine Or.inr ⟨rfl, Or.inl rfl, ?_⟩
        intro j cj hj
        simp only [Scheduler.slot, getD_set] at hj
        split at hj
        · cases hj; exact Or.inl rfl
        · exact Or.inr ⟨j, cj, hj, rfl⟩
      · split at h
        · exact absurd h (by simp)
        · cases h
          refine Or.inr ⟨rfl, Or.inr ⟨_, co, hs, rfl⟩, ?_⟩
          intro j cj hj
          simp only [Scheduler.slot, getD_set] at hj
          split at hj
          · cases hj; exact Or.inr ⟨_, co, hs, rfl⟩
          · exact Or.inr ⟨j, cj, hj, rfl⟩
      · cases h; exact Or.inl rfl

/-- Where `coroutine_yield` leaves the saved contexts and the control. -/
theorem yield_flows (m m1 : Machine) (n : Int) (h : coroutine_yield m n = .ok m1) :
    m1.s.main = m.s.main ∧ m1.cur = m.s.main
      ∧ (0 ≤ m.s.running)
      ∧ ∀ (j : Nat) (cj : Coroutine), m1.s.slot j = some cj →
          cj.ctx = m.cur ∨ m.s.slot j = some cj := by
  unfold coroutine_yield at h
  simp only at h
  split at h
  · exact absurd h (by simp)
  · rename_i hr
    have hr : m.s.running ≥ 0 ∧ m.s.running < m.s.capacity := by simpa using hr
    split at h
    · exact absurd h (by simp)
    · split at h
      · exact absurd h (by simp)
      · cases h
        refine ⟨rfl, rfl, hr.1, ?_⟩
        intro j cj hj
        simp only [Scheduler.slot, getD_set] at hj
        split at hj
        · cases hj; exact Or.inl rfl
        · exact Or.inr hj

theorem flowInv_start : FlowInv start :=
  Or.inr (Or.inl ⟨callerInv_start, fun i co h => by simp [start, open_slot] at h⟩)

/-- One step keeps `FlowInv`. -/
theorem flowInv_step (m m1 : Machine) (c : Call) (hinv : FlowInv m)
    (h : step m c = .ok m1) : FlowInv m1 := by
  by_cases hnull : m.cur = .null
  · exact absurd h (step_null m m1 c hnull)
  rcases hinv with h0 | ⟨hci, hnm⟩ | ⟨hcm, hmm, hnm⟩
  · exact absurd h0 hnull
  · -- only the caller has resumed so far
    cases c with
    | create func arg =>
      obtain ⟨s1, id, hc, rfl⟩ := step_create_ok m m1 func arg h
      refine Or.inr (Or.inl ⟨callerInv_create m s1 func arg id hci hc, ?_⟩)
      intro i co hi
      rcases (create_slots m.s s1 func arg id hc).1 i co hi with hold | hnew
      · exact hnm i co hold
      · subst hnew; simp [_coroutine_new]
    | store off b =>
      rw [step_store_ok m m1 off b h]
      exact Or.inr (Or.inl ⟨hci, hnm⟩)
    | ret =>
      obtain ⟨cid, hcur, rfl⟩ := step_ret_ok m m1 h
      refine Or.inr (Or.inl ⟨callerInv_ret m cid hci hcur, ?_⟩)
      intro i co hi
      simp only [_coroutine_entry_return, Scheduler.slot, getD_set] at hi
      split at hi
      · exact absurd hi (by simp)
      · exact hnm i co hi
    | yield n =>
      have hy := step_yield_ok m m1 n h
      have hci1 := callerInv_yield m m1 n hci hnull hy
      obtain ⟨_, hcur1, hrun, hctx⟩ := yield_flows m m1 n hy
      by_cases hmain : m.cur = .main
      · rcases (hci.2 hnull).2.1 hmain with hm | hm
        · exact Or.inl (by rw [hcur1, hm])
        · omega
      · refine Or.inr (Or.inl ⟨hci1, ?_⟩)
        intro j cj hj
        rcases hctx j cj hj with hc | hold
        · rw [hc]; exact hmain
        · exact hnm j cj hold
    | resume cid =>
      have hr := step_resume_ok m m1 cid h
      have hctx1 : ∀ (j : Nat) (cj : Coroutine), m1.s.slot j = some cj → cj.ctx ≠ .main := by
        intro j cj hj
        rcases resume_flows m m1 cid hr with he | ⟨_, _, hall⟩
        · subst he; exact hnm j cj hj
        · rcases hall j cj hj with hc | ⟨i0, c0, hs0, hc⟩
          · rw [hc]; simp
          · rw [hc]; exact hnm i0 c0 hs0
      by_cases hmain : m.cur = .main
      · exact Or.inr (Or.inl ⟨callerInv_resume m m1 cid hci hmain hr, hctx1⟩)
      · rcases resume_flows m m1 cid hr with he | ⟨hm1, hcur1, _⟩
        · subst he; exact Or.inr (Or.inl ⟨hci, hnm⟩)
        · refine Or.inr (Or.inr ⟨?_, by rw [hm1]; exact hmain, hctx1⟩)
          rcases hcur1 with hc | ⟨i0, c0, hs0, hc⟩
          · rw [hc]; simp
          · rw [hc]; exact hnm i0 c0 hs0
  · -- a coroutine has resumed another one
    cases c with
    | create func arg =>
      obtain ⟨s1, id, hc, rfl⟩ := step_create_ok m m1 func arg h
      obtain ⟨hslots, _, hmain, _, _⟩ := create_slots m.s s1 func arg id hc
      refine Or.inr (Or.inr ⟨hcm, by simpa [hmain] using hmm, ?_⟩)
      intro i co hi
      rcases hslots i co hi with hold | hnew
      · exact hnm i co hold
      · subst hnew; simp [_coroutine_new]
    | store off b =>
      rw [step_store_ok m m1 off b h]
      exact Or.inr (Or.inr ⟨hcm, hmm, hnm⟩)
    | ret =>
      obtain ⟨cid, hcur, rfl⟩ := step_ret_ok m m1 h
      refine Or.inr (Or.inr ⟨hmm, hmm, ?_⟩)
      intro i co hi
      simp only [_coroutine_entry_return, Scheduler.slot, getD_set] at hi
      split at hi
      · exact absurd hi (by simp)
      · exact hnm i co hi
    | yield n =>
      have hy := step_yield_ok m m1 n h
      obtain ⟨hm1, hcur1, _, hctx⟩ := yield_flows m m1 n hy
      refine Or.inr (Or.inr ⟨by rw [hcur1]; exact hmm, by rw [hm1]; exact hmm, ?_⟩)
      intro j cj hj
      rcases hctx j cj hj with hc | hold
      · rw [hc]; exact hcm
      · exact hnm j cj hold
    | resume cid =>
      have hr := step_resume_ok m m1 cid h
      rcases resume_flows m m1 cid hr with he | ⟨hm1, hcur1, hall⟩
      · subst he; exact Or.inr (Or.inr ⟨hcm, hmm, hnm⟩)
      · refine Or.inr (Or.inr ⟨?_, by rw [hm1]; exact hcm, ?_⟩)
        · rcases hcur1 with hc | ⟨i0, c0, hs0, hc⟩
          · rw [hc]; simp
          · rw [hc]; exact hnm i0 c0 hs0
        · intro j cj hj
          rcases hall j cj hj with hc | ⟨i0, c0, hs0, hc⟩
          · rw [hc]; simp
          · rw [hc]; exact hnm i0 c0 hs0

/-- Every run keeps `FlowInv`. -/
theorem flowInv_run (calls : List Call) :
    ∀ (m m1 : Machine), FlowInv m → run m calls = .ok m1 → FlowInv m1 := by
  induction calls with
  | nil =>
    intro m m1 hinv h
    simp only [run, Except.ok.injEq] at h
    subst h; exact hinv
  | cons c cs ih =>
    intro m m1 hinv h
    simp only [run] at h
    cases hs : step m c with
    | error e => simp [hs] at h
    | ok m2 =>
      simp only [hs] at h
      exact ih m2 m1 (flowInv_step m m2 c hinv hs) h

/-- Whenever the caller executes in a state reached by a run, `CallerInv` holds. -/
theorem callerInv_of_caller (calls : List Call) (m : Machine)
    (hrun : run start calls = .ok m) (hcur : m.cur = .main) : CallerInv m := by
  rcases flowInv_run calls start m flowInv_start hrun with h | ⟨h, _⟩ | ⟨h, _⟩
  · rw [hcur] at h; exact absurd h (by simp)
  · exact h
  · exact absurd hcur h

/-- What `test_loop` does on a machine in which coroutine `cid` runs with the
local `i` holding `k`. -/
theorem test_loop_running (count d ext : Nat) (m : Machine) (cid : Int) (co : Coroutine)
    (k : Nat) (out : Trace)
    (hd : 1 ≤ d) (hde : d ≤ ext) (hext : ext ≤ DEFAULT_STACK_SZIE)
    (hcur : m.cur = .co cid) (hmain : m.s.main = .main) (hrun : m.s.running = cid)
    (hr : 0 ≤ cid ∧ cid < m.s.capacity) (hs : m.s.slot cid.toNat = some co)
    (hbuf : co.size.toNat ≤ co.stack.length)
    (hi : m.s.stack (DEFAULT_STACK_SZIE - d) = k) :
    (k < count → ∃ buf : List Byte,
        test_loop count d ext m out = .ok
          (⟨⟨m.s.cos.set cid.toNat (some ⟨co.func, co.arg, .CO_SUSPEND, .co cid, ext, buf⟩),
              m.s.capacity, .main, -1, m.s.stack⟩, .main⟩, out ++ [(cid, k)])
          ∧ ext ≤ buf.length ∧ buf.getD (ext - d) 0 = k)
      ∧ (¬ k < count →
        test_loop count d ext m out = .ok
          (⟨⟨m.s.cos.set cid.toNat none, m.s.capacity, .main, -1, m.s.stack⟩, .main⟩, out)) := by
  constructor
  · intro hk
    have hr' : 0 ≤ m.s.running ∧ m.s.running < m.s.capacity := by rw [hrun]; exact hr
    have hs' : m.s.slot m.s.running.toNat = some co := by rw [hrun]; exact hs
    obtain ⟨rest, hy⟩ := yield_eq m (ext : Int) co hr' hs' (by omega) hbuf
    rw [hrun, hcur, hmain] at hy
    simp only [Int.toNat_ofNat] at hy
    refine ⟨readStack m.s.stack (DEFAULT_STACK_SZIE - ext) ext ++ rest, ?_, ?_, ?_⟩
    · unfold test_loop
      simp only [hi, hk, if_true, hy, coroutine_running, hrun]
    · simp only [List.length_append, readStack_length]; omega
    · rw [getD_readStack_append _ _ _ _ _ (by omega)]
      rw [← hi]
      congr 1
      omega
  · intro hk
    unfold test_loop
    simp only [hi, hk, if_false, step, hcur, _coroutine_entry_return, hmain]

/-- A `coroutine_resume` of the caller on a coroutine that runs `test`, dormant
or suspended in its yield with `i` one below `k`, up to the return of control:
the coroutine prints `k` and yields, or it returns and its slot is cleared. -/
theorem resumeTest_step (counts : Arg → Nat) (d ext : Nat) (m : Machine) (cid : Int)
    (co : Coroutine) (k : Nat) (out : Trace)
    (hd : 1 ≤ d) (hde : d ≤ ext) (hext : ext ≤ DEFAULT_STACK_SZIE)
    (hcur : m.cur = .main) (hr : 0 ≤ cid ∧ cid < m.s.capacity)
    (hs : m.s.slot cid.toNat = some co)
    (hcase : (co.state = .CO_READY ∧ co.size.toNat ≤ co.stack.length ∧ k = 0)
      ∨ (co.state = .CO_SUSPEND ∧ co.ctx = .co cid ∧ co.size = (ext : Int)
          ∧ ext ≤ co.stack.length ∧ co.stack.getD (ext - d) 0 + 1 = k)) :
    (k < counts co.arg → ∃ (buf : List Byte) (st : Nat → Byte),
        resumeTest counts d ext m cid out = .ok
          (⟨⟨m.s.cos.set cid.toNat (some ⟨co.func, co.arg, .CO_SUSPEND, .co cid, ext, buf⟩),
              m.s.capacity, .main, -1, st⟩, .main⟩, out ++ [(cid, k)])
          ∧ ext ≤ buf.length ∧ buf.getD (ext - d) 0 = k)
      ∧ (¬ k < counts co.arg → ∃ st : Nat → Byte,
        resumeTest counts d ext m cid out = .ok
          (⟨⟨m.s.cos.set cid.toNat none, m.s.capacity, .main, -1, st⟩, .main⟩, out)) := by
  have hlen := slot_lt m.s _ co hs
  rcases hcase with ⟨hst, hbuf, hk0⟩ | ⟨hst, hctx, hsz, hbl, hk⟩
  · -- a dormant coroutine: the trampoline starts `test`
    have hres := resume_ready_eq m cid co hr hs hst
    rw [hcur] at hres
    have hloop := test_loop_running (counts co.arg) d ext
      ⟨⟨m.s.cos.set cid.toNat (some ⟨co.func, co.arg, .CO_RUNNING, .co cid, co.size, co.stack⟩),
        m.s.capacity, .main, cid,
        fun a => if a = DEFAULT_STACK_SZIE - d then 0 else m.s.stack a⟩, .co cid⟩
      cid ⟨co.func, co.arg, .CO_RUNNING, .co cid, co.size, co.stack⟩ k out hd hde hext
      rfl rfl rfl hr
      (by simp only [Scheduler.slot, getD_set, hlen, and_self, if_true])
      hbuf (by simp [hk0])
    have hunf : resumeTest counts d ext m cid out
        = test_loop (counts co.arg) d ext
            ⟨⟨m.s.cos.set cid.toNat
                (some ⟨co.func, co.arg, .CO_RUNNING, .co cid, co.size, co.stack⟩),
              m.s.capacity, .main, cid,
              fun a => if a = DEFAULT_STACK_SZIE - d then 0 else m.s.stack a⟩, .co cid⟩ out := by
      unfold resumeTest
      simp only [hres, hs, hst]
      rfl
    rw [hunf]
    simp only [List.set_set] at hloop
    constructor
    · intro hlt
      obtain ⟨buf, h1, h2, h3⟩ := hloop.1 hlt
      exact ⟨buf, _, h1, h2, h3⟩
    · intro hlt
      exact ⟨_, hloop.2 hlt⟩
  · -- a suspended coroutine: `test` goes on after its yield
    have hsnap : 0 ≤ co.size ∧ co.size ≤ (DEFAULT_STACK_SZIE : Int)
        ∧ co.size.toNat ≤ co.stack.length := by
      rw [hsz]; simp only [Int.toNat_ofNat]; omega
    have hres := resume_suspended_eq m cid co hr hs hst hsnap
    rw [hcur, hctx, hsz] at hres
    simp only [Int.toNat_ofNat] at hres
    have hi : writeStack m.s.stack (DEFAULT_STACK_SZIE - ext) (co.stack.take ext)
        (DEFAULT_STACK_SZIE - d) = co.stack.getD (ext - d) 0 := by
      unfold writeStack
      have hl : (co.stack.take ext).length = ext := by
        rw [List.length_take]; omega
      rw [hl, if_pos (by omega), getD_take _ _ _ (by omega)]
      congr 1
      omega
    have hloop := test_loop_running (counts co.arg) d ext
      ⟨⟨m.s.cos.set cid.toNat (some ⟨co.func, co.arg, .CO_RUNNING, .co cid, ext, co.stack⟩),
        m.s.capacity, .main, cid,
        fun a => if a = DEFAULT_STACK_SZIE - d
          then writeStack m.s.stack (DEFAULT_STACK_SZIE - ext) (co.stack.take ext)
            (DEFAULT_STACK_SZIE - d) + 1
          else writeStack m.s.stack (DEFAULT_STACK_SZIE - ext) (co.stack.take ext) a⟩, .co cid⟩
      cid ⟨co.func, co.arg, .CO_RUNNING, .co cid, ext, co.stack⟩ k out hd hde hext
      rfl rfl rfl hr
      (by simp only [Scheduler.slot, getD_set, hlen, and_self, if_true])
      (by simp only [Int.toNat_ofNat]; exact hbl)
      (by
        show (if DEFAULT_STACK_SZIE - d = DEFAULT_STACK_SZIE - d then _ else _) = k
        rw [if_pos rfl, hi]
        exact hk)
    have hunf : resumeTest counts d ext m cid out
        = test_loop (counts co.arg) d ext
            ⟨⟨m.s.cos.set cid.toNat
                (some ⟨co.func, co.arg, .CO_RUNNING, .co cid, ext, co.stack⟩),
              m.s.capacity, .main, cid,
              fun a => if a = DEFAULT_STACK_SZIE - d
                then writeStack m.s.stack (DEFAULT_STACK_SZIE - ext) (co.stack.take ext)
                  (DEFAULT_STACK_SZIE - d) + 1
                else writeStack m.s.stack (DEFAULT_STACK_SZIE - ext) (co.stack.take ext) a⟩,
              .co cid⟩ out := by
      unfold resumeTest
      simp only [hres, hs, hst]
      rfl
    rw [hunf]
    simp only [List.set_set] at hloop
    constructor
    · intro hlt
      obtain ⟨buf, h1, h2, h3⟩ := hloop.1 hlt
      exact ⟨buf, _, h1, h2, h3⟩
    · intro hlt
      exact ⟨_, hloop.2 hlt⟩

/-- The step `resumeTest_step` for the coroutine in slot 0. -/
theorem resumeTest_first (counts : Arg → Nat) (d ext : Nat) (co : Coroutine)
    (b : Option Coroutine) (mn : Ctx) (rn : Int) (st : Nat → Byte) (k : Nat) (out : Trace)
    (hd : 1 ≤ d) (hde : d ≤ ext) (hext : ext ≤ DEFAULT_STACK_SZIE)
    (hcase : (co.state = .CO_READY ∧ co.size.toNat ≤ co.stack.length ∧ k = 0)
      ∨ (co.state = .CO_SUSPEND ∧ co.ctx = .co 0 ∧ co.size = (ext : Int)
          ∧ ext ≤ co.stack.length ∧ co.stack.getD (ext - d) 0 + 1 = k)) :
    (k < counts co.arg → ∃ (buf : List Byte) (st1 : Nat → Byte),
        resumeTest counts d ext (pairState (some co) b mn rn st) 0 out = .ok
          (pairState (some ⟨co.func, co.arg, .CO_SUSPEND, .co 0, ext, buf⟩) b .main (-1) st1,
            out ++ [(0, k)])
          ∧ ext ≤ buf.length ∧ buf.getD (ext - d) 0 = k)
      ∧ (¬ k < counts co.arg → ∃ st1 : Nat → Byte,
        resumeTest counts d ext (pairState (some co) b mn rn st) 0 out = .ok
          (pairState none b .main (-1) st1, out)) :=
  resumeTest_step counts d ext (pairState (some co) b mn rn st) 0 co k out hd hde hext rfl
    ⟨le_refl 0, show (0 : Int) < 16 by decide⟩ rfl hcase

/-- The step `resumeTest_step` for the coroutine in slot 1. -/
theorem resumeTest_second (counts : Arg → Nat) (d ext : Nat) (co : Coroutine)
    (a : Option Coroutine) (mn : Ctx) (rn : Int) (st : Nat → Byte) (k : Nat) (out : Trace)
    (hd : 1 ≤ d) (hde : d ≤ ext) (hext : ext ≤ DEFAULT_STACK_SZIE)
    (hcase : (co.state = .CO_READY ∧ co.size.toNat ≤ co.stack.length ∧ k = 0)
      ∨ (co.state = .CO_SUSPEND ∧ co.ctx = .co 1 ∧ co.size = (ext : Int)
          ∧ ext ≤ co.stack.length ∧ co.stack.getD (ext - d) 0 + 1 = k)) :
    (k < counts co.arg → ∃ (buf : List Byte) (st1 : Nat → Byte),
        resumeTest counts d ext (pairState a (some co) mn rn st) 1 out = .ok
          (pairState a (some ⟨co.func, co.arg, .CO_SUSPEND, .co 1, ext, buf⟩) .main (-1) st1,
            out ++ [(1, k)])
          ∧ ext ≤ buf.length ∧ buf.getD (ext - d) 0 = k)
      ∧ (¬ k < counts co.arg → ∃ st1 : Nat → Byte,
        resumeTest counts d ext (pairState a (some co) mn rn st) 1 out = .ok
          (pairState a none .main (-1) st1, out)) :=
  resumeTest_step counts d ext (pairState a (some co) mn rn st) 1 co k out hd hde hext rfl
    ⟨show (0 : Int) ≤ 1 by decide, show (1 : Int) < 16 by decide⟩ rfl hcase

theorem finished_pair_first (co : Coroutine) (b : Option Coroutine) (mn : Ctx) (rn : Int)
    (st : Nat → Byte) (h : co.state ≠ .CO_DONE) :
    coroutine_finished (pairState (some co) b mn rn st).s = 0 := by
  have h16 : finishedFrom (some co :: b :: List.replicate 14 none) (15 + 1) 0 = false := by
    rw [finishedFrom]
    simp [h]
  unfold coroutine_finished
  show (if finishedFrom (some co :: b :: List.replicate 14 none) (15 + 1) 0 = true
    then (1 : Int) else 0) = 0
  rw [h16]
  rfl

theorem finished_pair_none (mn : Ctx) (rn : Int) (st : Nat → Byte) :
    coroutine_finished (pairState none none mn rn st).s = 1 := by
  rfl

/-- One round of the loop of `main`. -/
theorem mainLoop_round (counts : Arg → Nat) (d ext fuel : Nat) (m m1 m2 : Machine)
    (out out1 out2 : Trace) (hf : coroutine_finished m.s = 0)
    (h1 : resumeTest counts d ext m 0 out = .ok (m1, out1))
    (h2 : resumeTest counts d ext m1 1 out1 = .ok (m2, out2)) :
    mainLoop counts d ext 0 1 (fuel + 1) m out = mainLoop counts d ext 0 1 fuel m2 out2 := by
  rw [mainLoop]
  simp only [hf, ne_eq, not_true_eq_false, if_false, h1, h2]

/-- The loop of `main` ends when `coroutine_finished` returns 1. -/
theorem mainLoop_done (counts : Arg → Nat) (d ext fuel : Nat) (m : Machine) (out : Trace)
    (hf : coroutine_finished m.s = 1) :
    mainLoop counts d ext 0 1 (fuel + 1) m out = some (.ok (m, out)) := by
  rw [mainLoop]
  simp [hf]

theorem alternating_succ (a len : Nat) :
    alternating a (len + 1) = [((0 : Int), a), ((1 : Int), a)] ++ alternating (a + 1) len := by
  simp [alternating, List.range'_succ, List.flatMap_cons]

/-- The loop of `main` from a state in which both coroutines are suspended in the yield of
iteration `j`: they print the remaining counter values in turn, return, and the loop ends. -/
theorem mainLoop_suspended (n d ext : Nat)
    (hd : 1 ≤ d) (hde : d ≤ ext) (hext : ext ≤ DEFAULT_STACK_SZIE) :
    ∀ (len j : Nat) (bufA bufB : List Byte) (st : Nat → Byte) (out : Trace) (fuel : Nat),
      j + 1 + len = n →
      ext ≤ bufA.length → bufA.getD (ext - d) 0 = j →
      ext ≤ bufB.length → bufB.getD (ext - d) 0 = j →
      len + 2 ≤ fuel →
      ∃ st1 : Nat → Byte,
        mainLoop (fun a => if a = 1 then n else n) d ext 0 1 fuel
            (pairState (some ⟨TEST, 1, .CO_SUSPEND, .co 0, ext, bufA⟩)
              (some ⟨TEST, 2, .CO_SUSPEND, .co 1, ext, bufB⟩) .main (-1) st) out
          = some (.ok (pairState none none .main (-1) st1, out ++ alternating (j + 1) len)) := by
  intro len
  induction len with
  | zero =>
    intro j bufA bufB st out fuel hj hA hAj hB hBj hfuel
    obtain ⟨f, rfl⟩ : ∃ f, fuel = f + 1 + 1 := ⟨fuel - 2, by omega⟩
    have hn : ¬ j + 1 < n := by omega
    obtain ⟨st1, h1⟩ := (resumeTest_first (fun a => if a = 1 then n else n) d ext
      ⟨TEST, 1, .CO_SUSPEND, .co 0, ext, bufA⟩ (some ⟨TEST, 2, .CO_SUSPEND, .co 1, ext, bufB⟩)
      .main (-1) st (j + 1) out hd hde hext
      (Or.inr ⟨rfl, rfl, rfl, hA, by show bufA.getD (ext - d) 0 + 1 = j + 1; rw [hAj]⟩)).2 (by simpa using hn)
    obtain ⟨st2, h2⟩ := (resumeTest_second (fun a => if a = 1 then n else n) d ext
      ⟨TEST, 2, .CO_SUSPEND, .co 1, ext, bufB⟩ none
      .main (-1) st1 (j + 1) out hd hde hext
      (Or.inr ⟨rfl, rfl, rfl, hB, by show bufB.getD (ext - d) 0 + 1 = j + 1; rw [hBj]⟩)).2 (by simpa using hn)
    refine ⟨st2, ?_⟩
    rw [mainLoop_round _ d ext (f + 1) _ _ _ out out out
      (finished_pair_first _ _ _ _ _ (by simp)) h1 h2]
    rw [mainLoop_done _ d ext f _ out (finished_pair_none _ _ _)]
    simp [alternating]
  | succ len ih =>
    intro j bufA bufB st out fuel hj hA hAj hB hBj hfuel
    obtain ⟨f, rfl⟩ : ∃ f, fuel = f + 1 := ⟨fuel - 1, by omega⟩
    have hn : j + 1 < n := by omega
    obtain ⟨bufA1, st1, h1, hA1, hAj1⟩ := (resumeTest_first (fun a => if a = 1 then n else n)
      d ext ⟨TEST, 1, .CO_SUSPEND, .co 0, ext, bufA⟩
      (some ⟨TEST, 2, .CO_SUSPEND, .co 1, ext, bufB⟩)
      .main (-1) st (j + 1) out hd hde hext
      (Or.inr ⟨rfl, rfl, rfl, hA, by show bufA.getD (ext - d) 0 + 1 = j + 1; rw [hAj]⟩)).1 (by simpa using hn)
    obtain ⟨bufB1, st2, h2, hB1, hBj1⟩ := (resumeTest_second (fun a => if a = 1 then n else n)
      d ext ⟨TEST, 2, .CO_SUSPEND, .co 1, ext, bufB⟩
      (some ⟨TEST, 1, .CO_SUSPEND, .co 0, ext, bufA1⟩)
      .main (-1) st1 (j + 1) (out ++ [(0, j + 1)]) hd hde hext
      (Or.inr ⟨rfl, rfl, rfl, hB, by show bufB.getD (ext - d) 0 + 1 = j + 1; rw [hBj]⟩)).1 (by simpa using hn)
    obtain ⟨st3, h3⟩ := ih (j + 1) bufA1 bufB1 st2 (out ++ [(0, j + 1)] ++ [(1, j + 1)]) f
      (by omega) hA1 hAj1 hB1 hBj1 (by omega)
    refine ⟨st3, ?_⟩
    rw [mainLoop_round _ d ext f _ _ _ out _ _
      (finished_pair_first _ _ _ _ _ (by simp)) h1 h2, h3, alternating_succ]
    simp

theorem pair_none_slot (mn : Ctx) (rn : Int) (st : Nat → Byte) (i : Nat) :
    (pairState none none mn rn st).s.slot i = none := by
  show (List.replicate 16 (none : Option Coroutine)).getD i none = none
  simp only [List.getD_eq_getElem?_getD, List.getElem?_replicate]
  split <;> rfl

/-- The function `main` up to its loop: two creates, which return the ids 0 and 1. -/
theorem mainTrace_eq (n1 n2 d ext fuel : Nat) :
    mainTrace n1 n2 d ext fuel
      = mainLoop (fun a => if a = 1 then n1 else n2) d ext 0 1 fuel
          (pairState (some (_coroutine_new TEST 1)) (some (_coroutine_new TEST 2)) .null 0
            (fun _ => 0)) [] := by
  rfl

/-! ## The claims -/

/-- C1: twenty consecutive `coroutine_create` calls on a freshly opened scheduler return the ids
0 to 15 and then 16 four times, so the ids returned are not pairwise distinct: the capacity
is never raised and each create on the full registry stores into `s->cos[16]`. -/
theorem create_twenty_ids :
    createIds coroutine_open (List.replicate 20 (1, 0))
        = [0, 1, 2, 3, 4, 5, 6, 7, 8, 9, 10, 11, 12, 13, 14, 15, 16, 16, 16, 16]
      ∧ ¬ (createIds coroutine_open (List.replicate 20 (1, 0))).Nodup := by
  decide

/-- C2: after sixteen creates on a freshly opened scheduler every slot below the capacity is
occupied; the next `coroutine_create` returns 16 and leaves the capacity at 16, so the id is
not below the capacity and both `coroutine_resume` and `coroutine_status` fail their range
assertion on it. -/
theorem create_full_keeps_capacity :
    ∃ (m : Machine) (s1 : Scheduler),
      run start (List.replicate 16 (Call.create 1 0)) = .ok m
        ∧ m.s.capacity = 16
        ∧ (∀ i : Nat, i < 16 → m.s.slot i ≠ none)
        ∧ coroutine_create m.s 1 0 = .ok (s1, 16)
        ∧ s1.capacity = 16
        ∧ coroutine_resume { s := s1, cur := .main } 16 = .error .assertion
        ∧ coroutine_status s1 16 = .error .assertion := by
  refine ⟨_, _, rfl, rfl, ?_, rfl, rfl, rfl, rfl⟩
  decide

/-- C3: when some slot below the capacity is empty (and the pointer array is allocated up to the
capacity), `coroutine_create` with a non-null entry function returns the lowest index `i`
whose slot is empty; afterwards slot `i` holds a coroutine in state `CO_READY` with the given
entry function and argument, no saved context and an empty snapshot, and the active id, the
capacity, the saved caller context, the shared stack and every other slot are unchanged. -/
theorem coroutine_create_first_free (s : Scheduler) (func : CoFunc) (arg : Arg)
    (hfunc : func ≠ 0) (halloc : s.capacity.toNat ≤ s.cos.length)
    (hfree : ∃ j : Nat, (j : Int) < s.capacity ∧ s.slot j = none) :
    ∃ (s1 : Scheduler) (i : Nat),
      coroutine_create s func arg = .ok (s1, (i : Int))
        ∧ (i : Int) < s.capacity ∧ s.slot i = none ∧ (∀ j, j < i → s.slot j ≠ none)
        ∧ s1.slot i = some
            { func := func, arg := arg, state := .CO_READY, ctx := .null, size := 0, stack := [] }
        ∧ (∀ j, j ≠ i → s1.slot j = s.slot j)
        ∧ s1.running = s.running ∧ s1.capacity = s.capacity
        ∧ s1.main = s.main ∧ s1.stack = s.stack := by
  obtain ⟨j, hj, hjfree⟩ := hfree
  have hjn : j < s.capacity.toNat := by omega
  obtain ⟨k, hk⟩ := firstFree_exists s.cos s.capacity.toNat j hjn hjfree
  obtain ⟨_, hk2, hk3, hk4⟩ := firstFree_some s.cos _ _ _ hk
  have hklen : k < s.cos.length := by omega
  refine ⟨{ s with cos := s.cos.set k (some (_coroutine_new func arg)) }, k, ?_, by omega, hk3,
    fun j hjk => hk4 j (Nat.zero_le _) hjk, ?_, ?_, rfl, rfl, rfl, rfl⟩
  · simp [coroutine_create, hfunc, hk]
  · rw [slot_set s k k _ hklen]; simp [_coroutine_new]
  · intro j hjk
    rw [slot_set s k j _ hklen]; simp [hjk]

/-- C3 at the freshly opened scheduler, whose lowest empty slot is 0. -/
theorem coroutine_create_first_free_witness :
    ∃ (s1 : Scheduler) (i : Nat),
      coroutine_create coroutine_open 7 9 = .ok (s1, (i : Int))
        ∧ (i : Int) < coroutine_open.capacity ∧ coroutine_open.slot i = none
        ∧ (∀ j, j < i → coroutine_open.slot j ≠ none)
        ∧ s1.slot i = some
            { func := 7, arg := 9, state := .CO_READY, ctx := .null, size := 0, stack := [] }
        ∧ (∀ j, j ≠ i → s1.slot j = coroutine_open.slot j)
        ∧ s1.running = coroutine_open.running ∧ s1.capacity = coroutine_open.capacity
        ∧ s1.main = coroutine_open.main ∧ s1.stack = coroutine_open.stack :=
  coroutine_create_first_free coroutine_open 7 9 (by decide) (by decide) ⟨0, by decide, by decide⟩

/-- C4: a freshly opened scheduler has capacity 16 and every slot empty, but `coroutine_running`
returns 0 on it, not the value -1 that `coroutine_yield` and the completion of a coroutine
store as the active id. -/
theorem open_running_zero :
    coroutine_open.capacity = 16
      ∧ (∀ i : Nat, coroutine_open.slot i = none)
      ∧ coroutine_running coroutine_open = 0
      ∧ coroutine_running coroutine_open ≠ -1
      ∧ (∀ (m : Machine) (c : Int), coroutine_running (_coroutine_entry_return m c).s = -1)
      ∧ (∃ m : Machine, run start [.create 1 0, .resume 0, .yield 5] = .ok m
          ∧ coroutine_running m.s = -1) := by
  refine ⟨rfl, ?_, rfl, by decide, fun _ _ => rfl, ⟨_, rfl, rfl⟩⟩
  intro i
  simp only [Scheduler.slot, coroutine_open, List.getD_eq_getElem?_getD, List.getElem?_replicate]
  split <;> rfl

/-- C5 fails when a coroutine resumes another one: after two creates the caller resumes
coroutine 0, whose body resumes coroutine 1, and slots 0 and 1 both hold a coroutine in state
`CO_RUNNING`. -/
theorem nested_resume_two_running :
    ∃ (m : Machine) (c0 c1 : Coroutine),
      run start [.create 1 0, .create 2 0, .resume 0, .resume 1] = .ok m
        ∧ m.s.slot 0 = some c0 ∧ c0.state = .CO_RUNNING
        ∧ m.s.slot 1 = some c1 ∧ c1.state = .CO_RUNNING :=
  ⟨_, _, _, rfl, rfl, rfl, rfl, rfl⟩

/-- C5, amended: in every state reached from `coroutine_open` by a run of create, resume and
yield calls (with returns of entry functions and stores of the running code to the shared
stack in between) in which every `coroutine_resume` is called by the caller, none from inside
a coroutine, at most one slot holds a coroutine in state `CO_RUNNING`. -/
theorem caller_resume_one_running (calls : List Call) (m : Machine)
    (hcaller : callerResumes start calls = true) (hrun : run start calls = .ok m)
    (i j : Nat) (ci cj : Coroutine)
    (hi : m.s.slot i = some ci) (hri : ci.state = .CO_RUNNING)
    (hj : m.s.slot j = some cj) (hrj : cj.state = .CO_RUNNING) : i = j := by
  obtain ⟨h1, _⟩ := callerInv_run calls start m callerInv_start hcaller hrun
  have e1 := h1 i ci hi hri
  have e2 := h1 j cj hj hrj
  rw [e1] at e2
  have : (i : Int) = j := by simpa using e2
  omega

/-- C5, amended, at a run that leaves coroutine 1 running and coroutine 0 suspended. -/
theorem caller_resume_one_running_witness :
    ∃ (m : Machine) (c : Coroutine),
      callerResumes start [.create 1 0, .create 2 0, .resume 0, .yield 5, .resume 1] = true
        ∧ run start [.create 1 0, .create 2 0, .resume 0, .yield 5, .resume 1] = .ok m
        ∧ m.s.slot 1 = some c ∧ c.state = .CO_RUNNING
        ∧ ∀ (j : Nat) (cj : Coroutine), m.s.slot j = some cj → cj.state = .CO_RUNNING → 1 = j :=
  ⟨_, _, rfl, rfl, rfl, rfl, fun j cj hj hr =>
    caller_resume_one_running [.create 1 0, .create 2 0, .resume 0, .yield 5, .resume 1] _
      rfl rfl 1 j _ cj rfl rfl hj hr⟩

/-- C6: after seventeen creates on a freshly opened scheduler and the resumption to completion of
the coroutines 0 to 15, `coroutine_finished` returns 1 although the seventeenth coroutine,
stored in `s->cos[16]`, is still in state `CO_READY` and never ran. -/
theorem finished_ignores_overflow :
    ∃ (m : Machine) (co : Coroutine),
      run start (List.replicate 17 (Call.create 1 0)
          ++ (List.range 16).flatMap (fun i => [Call.resume (i : Int), Call.ret])) = .ok m
        ∧ coroutine_finished m.s = 1
        ∧ m.s.slot 16 = some co ∧ co.state = .CO_READY :=
  ⟨_, _, rfl, rfl, rfl, rfl⟩

/-- C7: for every scheduler, `coroutine_finished` returns 1 exactly when every slot below the
capacity is empty or holds a coroutine in state `CO_DONE`, and 0 exactly when that fails. The
function only reads the scheduler: its result is a number, no scheduler. -/
theorem coroutine_finished_iff (s : Scheduler) :
    (coroutine_finished s = 1 ↔
        ∀ i : Nat, (i : Int) < s.capacity →
          (s.slot i = none ∨ ∃ co, s.slot i = some co ∧ co.state = .CO_DONE))
      ∧ (coroutine_finished s = 0 ↔
        ¬ ∀ i : Nat, (i : Int) < s.capacity →
          (s.slot i = none ∨ ∃ co, s.slot i = some co ∧ co.state = .CO_DONE)) := by
  have key : finishedFrom s.cos s.capacity.toNat 0 = true ↔
      ∀ i : Nat, (i : Int) < s.capacity →
        (s.slot i = none ∨ ∃ co, s.slot i = some co ∧ co.state = .CO_DONE) := by
    rw [finishedFrom_iff]
    constructor
    · intro h i hi
      exact h i (Nat.zero_le _) (by omega)
    · intro h j _ hj
      exact h j (by omega)
  unfold coroutine_finished
  by_cases hf : finishedFrom s.cos s.capacity.toNat 0 = true
  · have hP := key.mp hf
    rw [if_pos hf]
    exact ⟨⟨fun _ => hP, fun _ => rfl⟩, ⟨fun h => absurd h (by decide), fun h => absurd hP h⟩⟩
  · have hn : ¬ ∀ i : Nat, (i : Int) < s.capacity →
        (s.slot i = none ∨ ∃ co, s.slot i = some co ∧ co.state = .CO_DONE) :=
      fun h => hf (key.mpr h)
    rw [if_neg hf]
    exact ⟨⟨fun h => absurd h (by decide), fun h => absurd h hn⟩, ⟨fun _ => hn, fun _ => rfl⟩⟩

/-- C8: in every state reached by a run from `coroutine_open`, for an id within the capacity whose
slot holds a coroutine in state `CO_READY` or `CO_SUSPEND`, `coroutine_resume` succeeds; it
sets that coroutine to `CO_RUNNING` (entry function, argument and snapshot kept) and the
active id to the id, then switches to the context of the coroutine (a fresh trampoline for
`CO_READY`, the saved context for `CO_SUSPEND`), so that `coroutine_running` returns the id
there; every other slot and the capacity are unchanged. -/
theorem coroutine_resume_marks_running (calls : List Call) (m : Machine)
    (hrun : run start calls = .ok m) (cid : Int) (co : Coroutine)
    (hr : 0 ≤ cid ∧ cid < m.s.capacity) (hs : m.s.slot cid.toNat = some co)
    (hst : co.state = .CO_READY ∨ co.state = .CO_SUSPEND) :
    ∃ m1 : Machine,
      coroutine_resume m cid = .ok m1
        ∧ m1.s.slot cid.toNat = some { co with
            state := .CO_RUNNING
            ctx := if co.state = .CO_READY then .co cid else co.ctx }
        ∧ m1.s.running = cid
        ∧ coroutine_running m1.s = cid
        ∧ m1.cur = (if co.state = .CO_READY then .co cid else co.ctx)
        ∧ (∀ j : Nat, j ≠ cid.toNat → m1.s.slot j = m.s.slot j)
        ∧ m1.s.capacity = m.s.capacity := by
  have hsnap := snapInv_run calls start m snapInv_open hrun _ co hs
  have hlen := slot_lt m.s _ co hs
  have hr2 : cid ≥ 0 ∧ cid < m.s.capacity := hr
  unfold coroutine_resume
  simp only [hr2, and_self, not_true_eq_false, if_false]
  rw [hs]
  rcases hst with hst | hst
  · simp only [hst]
    refine ⟨_, rfl, ?_, rfl, rfl, ?_, ?_, rfl⟩
    · simp [Scheduler.slot, getD_set, hlen, hst]
    · simp
    · intro j hj
      simp only [Scheduler.slot, getD_set, hj, false_and, if_false]
  · have hok : ¬ (co.size < 0 ∨ (DEFAULT_STACK_SZIE : Int) < co.size
        ∨ co.stack.length < co.size.toNat) := by omega
    simp only [hst, hok, if_false]
    refine ⟨_, rfl, ?_, rfl, rfl, ?_, ?_, rfl⟩
    · simp [Scheduler.slot, getD_set, hlen, hst]
    · simp
    · intro j hj
      simp only [Scheduler.slot, getD_set, hj, false_and, if_false]

/-- C8 at the coroutine created first on a freshly opened scheduler. -/
theorem coroutine_resume_marks_running_witness :
    ∃ m m1 : Machine,
      run start [.create 7 9] = .ok m
        ∧ coroutine_resume m 0 = .ok m1
        ∧ m1.s.slot 0 = some ⟨7, 9, .CO_RUNNING, .co 0, 0, []⟩
        ∧ m1.s.running = 0 ∧ coroutine_running m1.s = 0 ∧ m1.cur = .co 0 := by
  obtain ⟨m1, h1, h2, h3, h4, h5, _, _⟩ :=
    coroutine_resume_marks_running [.create 7 9] _ rfl 0 (_coroutine_new 7 9)
      (by decide) rfl (Or.inl rfl)
  exact ⟨_, m1, rfl, h1, h2, h3, h4, h5⟩

/-- C9: for an id within the capacity whose slot is empty or holds a coroutine in state
`CO_RUNNING` or `CO_DONE`, `coroutine_resume` returns with the machine (registry, coroutine
states, active id, saved caller context, shared stack, executing flow) exactly as it was. -/
theorem coroutine_resume_noop (m : Machine) (cid : Int)
    (hr : 0 ≤ cid ∧ cid < m.s.capacity)
    (hs : m.s.slot cid.toNat = none
      ∨ ∃ co, m.s.slot cid.toNat = some co
          ∧ (co.state = .CO_RUNNING ∨ co.state = .CO_DONE)) :
    coroutine_resume m cid = .ok m := by
  unfold coroutine_resume
  have hr2 : cid ≥ 0 ∧ cid < m.s.capacity := hr
  simp only [hr2, and_self, not_true_eq_false, if_false]
  rcases hs with hs | ⟨co, hs, hst | hst⟩
  · rw [hs]
  · rw [hs]; simp only [hst]
  · rw [hs]; simp only [hst]

/-- C9 at the empty slot 3 of the freshly opened scheduler. -/
theorem coroutine_resume_noop_witness :
    (0 ≤ (3 : Int) ∧ (3 : Int) < start.s.capacity) ∧ coroutine_resume start 3 = .ok start :=
  ⟨by decide, coroutine_resume_noop start 3 (by decide) (Or.inl rfl)⟩

/-- C10: in every state reached by a run from `coroutine_open` in which the active id `cid` lies
within the capacity and its slot is occupied, `coroutine_yield` with a live stack extent `n`
between zero and the stack size succeeds; the coroutine of slot `cid` is then in state
`CO_SUSPEND` with snapshot size `n` and the top `n` bytes of the shared stack at the start of
its buffer, the active id is -1, every other slot and the capacity are unchanged,
`coroutine_status` reports `CO_SUSPEND` for `cid`, `coroutine_running` reports -1, and control
is with the context saved in `s->main`. -/
theorem coroutine_yield_suspends (calls : List Call) (m : Machine)
    (hrun : run start calls = .ok m) (cid : Int) (co : Coroutine) (n : Int)
    (hact : m.s.running = cid) (hr : 0 ≤ cid ∧ cid < m.s.capacity)
    (hs : m.s.slot cid.toNat = some co)
    (hn : 0 ≤ n ∧ n ≤ (DEFAULT_STACK_SZIE : Int)) :
    ∃ (m1 : Machine) (co1 : Coroutine),
      coroutine_yield m n = .ok m1
        ∧ m1.s.slot cid.toNat = some co1
        ∧ co1.state = .CO_SUSPEND ∧ co1.func = co.func ∧ co1.arg = co.arg
        ∧ co1.size = n
        ∧ co1.stack.take n.toNat = readStack m.s.stack (DEFAULT_STACK_SZIE - n.toNat) n.toNat
        ∧ m1.s.running = -1
        ∧ (∀ j : Nat, j ≠ cid.toNat → m1.s.slot j = m.s.slot j)
        ∧ m1.s.capacity = m.s.capacity
        ∧ coroutine_status m1.s cid = .ok CoState.CO_SUSPEND.val
        ∧ coroutine_running m1.s = -1
        ∧ m1.cur = m.s.main := by
  have hsnap := snapInv_run calls start m snapInv_open hrun _ co hs
  have hlen := slot_lt m.s _ co hs
  obtain ⟨buf, hbuf, hsave⟩ := save_stack_ok co m.s.stack n hn hsnap.2.2
  have hr2 : m.s.running ≥ 0 ∧ m.s.running < m.s.capacity := by rw [hact]; exact hr
  have hr3 : cid ≥ 0 ∧ cid < m.s.capacity := hr
  subst hact
  have hslot : Scheduler.slot
      { m.s with
        cos := m.s.cos.set m.s.running.toNat
          (some { co with
            size := n
            stack := readStack m.s.stack (DEFAULT_STACK_SZIE - n.toNat) n.toNat
              ++ buf.drop n.toNat
            state := .CO_SUSPEND
            ctx := m.cur })
        running := -1 } m.s.running.toNat
      = some { co with
            size := n
            stack := readStack m.s.stack (DEFAULT_STACK_SZIE - n.toNat) n.toNat
              ++ buf.drop n.toNat
            state := .CO_SUSPEND
            ctx := m.cur } := by
    simp only [Scheduler.slot, getD_set, hlen, and_self, if_true]
  refine ⟨{ s := { m.s with
              cos := m.s.cos.set m.s.running.toNat
                (some { co with
                  size := n
                  stack := readStack m.s.stack (DEFAULT_STACK_SZIE - n.toNat) n.toNat
                    ++ buf.drop n.toNat
                  state := .CO_SUSPEND
                  ctx := m.cur })
              running := -1 }
            cur := m.s.main },
    { co with
        size := n
        stack := readStack m.s.stack (DEFAULT_STACK_SZIE - n.toNat) n.toNat ++ buf.drop n.toNat
        state := .CO_SUSPEND
        ctx := m.cur },
    ?_, hslot, rfl, rfl, rfl, rfl, ?_, rfl, ?_, rfl, ?_, rfl, rfl⟩
  · unfold coroutine_yield
    simp only [hr2, and_self, not_true_eq_false, if_false, hs, hsave]
  · simp only
    rw [List.take_left' (readStack_length _ _ _)]
  · intro j hj
    simp only [Scheduler.slot, getD_set, hj, false_and, if_false]
  · unfold coroutine_status
    simp only [hr3, and_self, not_true_eq_false, if_false, hslot]

/-- C10 at the first coroutine of a freshly opened scheduler, resumed, storing 42 in the top
byte of the shared stack and then yielding with five live bytes. -/
theorem coroutine_yield_suspends_witness :
    ∃ (m m1 : Machine) (co1 : Coroutine),
      run start [.create 7 9, .resume 0, .store (DEFAULT_STACK_SZIE - 1) 42] = .ok m
        ∧ coroutine_yield m 5 = .ok m1
        ∧ m1.s.slot 0 = some co1 ∧ co1.state = .CO_SUSPEND
        ∧ co1.size = 5 ∧ co1.stack.take 5 = [0, 0, 0, 0, 42] ∧ m1.s.running = -1
        ∧ coroutine_status m1.s 0 = .ok 2 := by
  obtain ⟨m1, co1, h1, h2, h3, _, _, h4, h5, h6, _, _, h7, _, _⟩ :=
    coroutine_yield_suspends [.create 7 9, .resume 0, .store (DEFAULT_STACK_SZIE - 1) 42] _ rfl 0
      ⟨7, 9, .CO_RUNNING, .co 0, 0, []⟩ 5 rfl (by decide) rfl (by decide)
  exact ⟨_, m1, co1, rfl, h1, h2, h3, h4, h5.trans rfl, h6, h7⟩

/-- C11: in every state reached by a run from `coroutine_open` in which the caller executes, when
the caller calls `coroutine_resume` on an id within the capacity whose slot holds a dormant
or suspended coroutine, and the coroutine then only stores to its stack and either returns
or yields (with a live extent between zero and the stack size), the run succeeds and control
is back with the caller with the active id -1; the slot is empty if the entry function
returned and holds the coroutine in state `CO_SUSPEND` if it yielded, and no slot holds a
coroutine in state `CO_RUNNING`. -/
theorem resume_returns_to_caller (calls : List Call) (m : Machine)
    (hrun : run start calls = .ok m) (hcur : m.cur = .main) (cid : Int) (co : Coroutine)
    (hr : 0 ≤ cid ∧ cid < m.s.capacity) (hs : m.s.slot cid.toNat = some co)
    (hst : co.state = .CO_READY ∨ co.state = .CO_SUSPEND)
    (body : List Call) (hbody : ∀ c ∈ body, isStore c = true) :
    (∃ m2 : Machine,
        run m (.resume cid :: (body ++ [.ret])) = .ok m2
          ∧ m2.cur = .main ∧ m2.s.running = -1
          ∧ m2.s.slot cid.toNat = none
          ∧ ∀ (i : Nat) (ci : Coroutine), m2.s.slot i = some ci → ci.state ≠ .CO_RUNNING)
      ∧ (∀ n : Int, 0 ≤ n ∧ n ≤ (DEFAULT_STACK_SZIE : Int) →
          ∃ (m2 : Machine) (co2 : Coroutine),
            run m (.resume cid :: (body ++ [.yield n])) = .ok m2
              ∧ m2.cur = .main ∧ m2.s.running = -1
              ∧ m2.s.slot cid.toNat = some co2 ∧ co2.state = .CO_SUSPEND
              ∧ ∀ (i : Nat) (ci : Coroutine), m2.s.slot i = some ci →
                  ci.state ≠ .CO_RUNNING) := by
  have hinv := callerInv_of_caller calls m hrun hcur
  have hsnap := snapInv_run calls start m snapInv_open hrun _ co hs
  have hlen := slot_lt m.s _ co hs
  have hcid : ((cid.toNat : Nat) : Int) = cid := Int.toNat_of_nonneg hr.1
  have hnorun : ∀ (i : Nat) (ci : Coroutine), m.s.slot i = some ci → ci.state ≠ .CO_RUNNING := by
    intro i ci hi hri
    have := hinv.1 i ci hi hri
    rw [hcur] at this
    exact absurd this (by simp)
  have hk : (if co.state = .CO_READY then Ctx.co cid else co.ctx) = .co cid := by
    rcases hst with h | h
    · simp [h]
    · have hD := (hinv.2 (by rw [hcur]; simp)).2.2 _ co hs h
      rw [hcid] at hD
      simp [h, hD]
  obtain ⟨st1, hres⟩ := resume_switch m cid co hr hs hst (fun _ => hsnap)
  rw [hk] at hres
  obtain ⟨st2, hstores⟩ := run_stores body
    ⟨⟨m.s.cos.set cid.toNat (some ⟨co.func, co.arg, .CO_RUNNING, .co cid, co.size, co.stack⟩),
      m.s.capacity, m.cur, cid, st1⟩, .co cid⟩ (by simp) hbody
  have hstep : step m (.resume cid) = coroutine_resume m cid := by
    simp [step, hcur]
  constructor
  · have hrun2 : run m (.resume cid :: (body ++ [.ret])) = .ok
        ⟨⟨(m.s.cos.set cid.toNat
              (some ⟨co.func, co.arg, .CO_RUNNING, .co cid, co.size, co.stack⟩)).set
                cid.toNat none,
            m.s.capacity, m.cur, -1, st2⟩, m.cur⟩ := by
      simp only [run, hstep, hres, run_append, hstores]
      rfl
    have hslot2 : ∀ j : Nat, Scheduler.slot
        ⟨(m.s.cos.set cid.toNat
            (some ⟨co.func, co.arg, .CO_RUNNING, .co cid, co.size, co.stack⟩)).set
              cid.toNat none,
          m.s.capacity, m.cur, -1, st2⟩ j
        = if j = cid.toNat then none else m.s.slot j := by
      intro j
      simp only [Scheduler.slot, getD_set, List.length_set]
      by_cases hj : j = cid.toNat
      · simp [hj, hlen]
      · simp [hj]
    refine ⟨_, hrun2, hcur, rfl, ?_, ?_⟩
    · rw [hslot2]; simp
    · intro i ci hi
      rw [hslot2] at hi
      split at hi
      · exact absurd hi (by simp)
      · exact hnorun i ci hi
  · intro n hn
    have hslot1 : Scheduler.slot
        ⟨m.s.cos.set cid.toNat
            (some ⟨co.func, co.arg, .CO_RUNNING, .co cid, co.size, co.stack⟩),
          m.s.capacity, m.cur, cid, st2⟩ cid.toNat
        = some ⟨co.func, co.arg, .CO_RUNNING, .co cid, co.size, co.stack⟩ := by
      simp only [Scheduler.slot, getD_set, hlen, and_self, if_true]
    obtain ⟨buf, hy⟩ := yield_switch
      ⟨⟨m.s.cos.set cid.toNat
            (some ⟨co.func, co.arg, .CO_RUNNING, .co cid, co.size, co.stack⟩),
          m.s.capacity, m.cur, cid, st2⟩, .co cid⟩ n
      ⟨co.func, co.arg, .CO_RUNNING, .co cid, co.size, co.stack⟩ hr hslot1 hn hsnap.2.2
    have hrun2 : run m (.resume cid :: (body ++ [.yield n])) = .ok
        ⟨⟨(m.s.cos.set cid.toNat
              (some ⟨co.func, co.arg, .CO_RUNNING, .co cid, co.size, co.stack⟩)).set
                cid.toNat (some ⟨co.func, co.arg, .CO_SUSPEND, .co cid, n, buf⟩),
            m.s.capacity, m.cur, -1, st2⟩, m.cur⟩ := by
      have e1 : run m (.resume cid :: (body ++ [.yield n]))
          = run ⟨⟨m.s.cos.set cid.toNat
                (some ⟨co.func, co.arg, .CO_RUNNING, .co cid, co.size, co.stack⟩),
              m.s.capacity, m.cur, cid, st1⟩, .co cid⟩ (body ++ [.yield n]) := by
        simp only [run, hstep, hres]
      rw [e1, run_append, hstores]
      show (match step ⟨⟨m.s.cos.set cid.toNat
                (some ⟨co.func, co.arg, .CO_RUNNING, .co cid, co.size, co.stack⟩),
              m.s.capacity, m.cur, cid, st2⟩, .co cid⟩ (.yield n) with
          | .ok m1 => run m1 []
          | .error e => .error e) = _
      have hsy : step ⟨⟨m.s.cos.set cid.toNat
                (some ⟨co.func, co.arg, .CO_RUNNING, .co cid, co.size, co.stack⟩),
              m.s.capacity, m.cur, cid, st2⟩, .co cid⟩ (.yield n)
          = coroutine_yield ⟨⟨m.s.cos.set cid.toNat
                (some ⟨co.func, co.arg, .CO_RUNNING, .co cid, co.size, co.stack⟩),
              m.s.capacity, m.cur, cid, st2⟩, .co cid⟩ n := rfl
      rw [hsy, hy]
      rfl
    have hslot2 : ∀ j : Nat, Scheduler.slot
        ⟨(m.s.cos.set cid.toNat
            (some ⟨co.func, co.arg, .CO_RUNNING, .co cid, co.size, co.stack⟩)).set
              cid.toNat (some ⟨co.func, co.arg, .CO_SUSPEND, .co cid, n, buf⟩),
          m.s.capacity, m.cur, -1, st2⟩ j
        = if j = cid.toNat then some ⟨co.func, co.arg, .CO_SUSPEND, .co cid, n, buf⟩
          else m.s.slot j := by
      intro j
      simp only [Scheduler.slot, getD_set, List.length_set]
      by_cases hj : j = cid.toNat
      · simp [hj, hlen]
      · simp [hj]
    refine ⟨_, ⟨co.func, co.arg, .CO_SUSPEND, .co cid, n, buf⟩, hrun2, hcur, rfl, ?_, rfl, ?_⟩
    · rw [hslot2]; simp
    · intro i ci hi
      rw [hslot2] at hi
      split at hi
      · cases hi; simp
      · exact hnorun i ci hi

/-- C11 at the first coroutine of a freshly opened scheduler, which stores a byte and yields. -/
theorem resume_returns_to_caller_witness :
    ∃ (m m2 : Machine) (co2 : Coroutine),
      run start [.create 7 9] = .ok m
        ∧ run m [.resume 0, .store 5 1, .yield 16] = .ok m2
        ∧ m2.cur = .main ∧ m2.s.running = -1
        ∧ m2.s.slot 0 = some co2 ∧ co2.state = .CO_SUSPEND := by
  obtain ⟨m2, co2, h1, h2, h3, h4, h5, _⟩ :=
    (resume_returns_to_caller [.create 7 9] _ rfl rfl 0 (_coroutine_new 7 9) (by decide) rfl
      (Or.inl rfl) [.store 5 1] (by decide)).2 16 (by decide)
  exact ⟨_, m2, co2, rfl, h1, h2, h3, h4, h5⟩

/-- C12: for every content `stack0` of the shared stack and every extent `n` between zero and the
stack size, `_save_stack` on a coroutine whose buffer holds its recorded size succeeds; and
whenever the coroutine is later suspended in a slot with that snapshot, whatever the shared
stack then holds, `coroutine_resume` leaves the top `n` bytes of the shared stack equal to
their values in `stack0` and every byte below offset stack size - `n` (and any past the
array) as it was before the restore. -/
theorem save_restore_roundtrip (co : Coroutine) (stack0 : Nat → Byte) (n : Int)
    (hn : 0 ≤ n ∧ n ≤ (DEFAULT_STACK_SZIE : Int))
    (hbuf : co.size.toNat ≤ co.stack.length) :
    ∃ co1 : Coroutine,
      _save_stack co stack0 n = .ok co1
        ∧ ∀ (m : Machine) (cid : Int) (co2 : Coroutine),
            0 ≤ cid ∧ cid < m.s.capacity →
            m.s.slot cid.toNat = some co2 →
            co2.state = .CO_SUSPEND → co2.size = co1.size → co2.stack = co1.stack →
            ∃ m1 : Machine,
              coroutine_resume m cid = .ok m1
                ∧ (∀ a : Nat, DEFAULT_STACK_SZIE - n.toNat ≤ a → a < DEFAULT_STACK_SZIE →
                    m1.s.stack a = stack0 a)
                ∧ (∀ a : Nat, a < DEFAULT_STACK_SZIE - n.toNat → m1.s.stack a = m.s.stack a)
                ∧ (∀ a : Nat, DEFAULT_STACK_SZIE ≤ a → m1.s.stack a = m.s.stack a) := by
  obtain ⟨buf, hlen, hsave⟩ := save_stack_ok co stack0 n hn hbuf
  refine ⟨_, hsave, ?_⟩
  intro m cid co2 hr hs hst hsz hstk
  have htake := save_stack_take co _ stack0 n hsave
  simp only at hsz hstk
  have hr2 : cid ≥ 0 ∧ cid < m.s.capacity := hr
  have hlen2 : n.toNat ≤ co2.stack.length := by
    rw [hstk]; simp only [List.length_append, readStack_length]; omega
  have hok : ¬ (co2.size < 0 ∨ (DEFAULT_STACK_SZIE : Int) < co2.size
      ∨ co2.stack.length < co2.size.toNat) := by
    rw [hsz]; omega
  have htake2 : co2.stack.take co2.size.toNat
      = readStack stack0 (DEFAULT_STACK_SZIE - n.toNat) n.toNat := by
    rw [hsz, hstk]; exact htake
  have hres : coroutine_resume m cid = .ok
      ⟨⟨m.s.cos.set cid.toNat (some { co2 with state := .CO_RUNNING }), m.s.capacity, m.cur, cid,
          writeStack m.s.stack (DEFAULT_STACK_SZIE - co2.size.toNat)
            (co2.stack.take co2.size.toNat)⟩, co2.ctx⟩ := by
    unfold coroutine_resume
    simp only [hr2, and_self, not_true_eq_false, if_false, hs, hst, hok]
  refine ⟨_, hres, ?_, ?_, ?_⟩
  · intro a ha1 ha2
    show writeStack m.s.stack (DEFAULT_STACK_SZIE - co2.size.toNat)
      (co2.stack.take co2.size.toNat) a = _
    rw [htake2, hsz, writeStack_readStack, if_pos (by omega)]
  · intro a ha
    show writeStack m.s.stack (DEFAULT_STACK_SZIE - co2.size.toNat)
      (co2.stack.take co2.size.toNat) a = _
    rw [htake2, hsz, writeStack_readStack, if_neg (by omega)]
  · intro a ha
    show writeStack m.s.stack (DEFAULT_STACK_SZIE - co2.size.toNat)
      (co2.stack.take co2.size.toNat) a = _
    rw [htake2, hsz, writeStack_readStack, if_neg (by omega)]

/-- C12 at a new coroutine, four live bytes and a stack overwritten with 99 before the resume. -/
theorem save_restore_roundtrip_witness :
    ∃ co1 : Coroutine,
      _save_stack (_coroutine_new 7 9) (fun a => a % 251) 4 = .ok co1
        ∧ ∃ m1 : Machine,
            coroutine_resume
                ⟨⟨[some { co1 with state := .CO_SUSPEND }], 16, .main, -1, fun _ => 99⟩, .main⟩ 0
              = .ok m1
            ∧ m1.s.stack (DEFAULT_STACK_SZIE - 1) = (DEFAULT_STACK_SZIE - 1) % 251
            ∧ m1.s.stack (DEFAULT_STACK_SZIE - 5) = 99 := by
  obtain ⟨co1, hsave, hres⟩ :=
    save_restore_roundtrip (_coroutine_new 7 9) (fun a => a % 251) 4 (by decide) (by decide)
  obtain ⟨m1, h1, h2, h3, _⟩ :=
    hres ⟨⟨[some { co1 with state := .CO_SUSPEND }], 16, .main, -1, fun _ => 99⟩, .main⟩ 0
      { co1 with state := .CO_SUSPEND }
      ⟨le_refl 0, show (0 : Int) < 16 by decide⟩ rfl rfl rfl rfl
  exact ⟨co1, hsave, m1, h1, h2 _ (by decide) (by decide), h3 _ (by decide)⟩

/-- C13: after `coroutine_open` and one `coroutine_create` no slot holds a coroutine in state
`CO_RUNNING`, yet `coroutine_yield` called by the caller fails an assertion only if the
extent it measures exceeds the stack size: the active id is 0 since `coroutine_open`, so the
assertions on it pass. With a negative extent the call ends in a memory fault, and with an
extent within the stack it suspends the dormant coroutine 0 and sets the active id to -1. -/
theorem yield_on_fresh_passes_asserts :
    run start [.create 1 0] = .ok oneCreated
      ∧ (∀ (i : Nat) (co : Coroutine), oneCreated.s.slot i = some co → co.state ≠ .CO_RUNNING)
      ∧ (∀ n : Int, coroutine_yield oneCreated n = .error .assertion
          ↔ (DEFAULT_STACK_SZIE : Int) < n)
      ∧ coroutine_yield oneCreated (-4096) = .error .memory
      ∧ (∃ (m1 : Machine) (co1 : Coroutine),
          coroutine_yield oneCreated 64 = .ok m1 ∧ m1.s.slot 0 = some co1
            ∧ co1.state = .CO_SUSPEND ∧ co1.size = 64 ∧ m1.s.running = -1) := by
  refine ⟨rfl, ?_, ?_, rfl, ⟨_, _, rfl, rfl, rfl, rfl, rfl⟩⟩
  · intro i co hi hst
    have hinv := callerInv_run [.create 1 0] start oneCreated callerInv_start rfl rfl
    exact absurd (hinv.1 i co hi hst) (by simp [oneCreated])
  · intro n
    rw [yield_oneCreated, ← save_stack_assertion (_coroutine_new 1 0) (fun _ => 0) n]
    cases h : _save_stack (_coroutine_new 1 0) (fun _ => 0) n with
    | ok co1 => simp
    | error e => simp

/-- C14: when the caller calls `coroutine_resume` on an id within the capacity whose slot holds a
dormant coroutine, the coroutine is set to `CO_RUNNING` and gets control; when its entry
function then returns having only stored to its stack, control is back with the caller, the
slot is empty, `coroutine_status` returns the value of `CO_DONE`, the active id is -1 and the
other slots are as before; and a following `coroutine_create` returns the same id whenever
every slot below it is occupied. -/
theorem resume_return_frees_slot (m : Machine) (cid : Int) (co : Coroutine) (body : List Call)
    (hcur : m.cur = .main) (hr : 0 ≤ cid ∧ cid < m.s.capacity)
    (hs : m.s.slot cid.toNat = some co) (hst : co.state = .CO_READY)
    (hbody : ∀ c ∈ body, isStore c = true) :
    ∃ m1 m2 : Machine,
      coroutine_resume m cid = .ok m1
        ∧ m1.cur = .co cid
        ∧ (∃ co1 : Coroutine, m1.s.slot cid.toNat = some co1 ∧ co1.state = .CO_RUNNING)
        ∧ run m (.resume cid :: (body ++ [.ret])) = .ok m2
        ∧ m2.cur = .main
        ∧ m2.s.slot cid.toNat = none
        ∧ coroutine_status m2.s cid = .ok CoState.CO_DONE.val
        ∧ coroutine_running m2.s = -1
        ∧ (∀ j : Nat, j ≠ cid.toNat → m2.s.slot j = m.s.slot j)
        ∧ (∀ (func : CoFunc) (arg : Arg), func ≠ 0 →
            (∀ j : Nat, j < cid.toNat → m2.s.slot j ≠ none) →
            ∃ s3 : Scheduler, coroutine_create m2.s func arg = .ok (s3, cid)
              ∧ s3.slot cid.toNat = some (_coroutine_new func arg)) := by
  have hlen := slot_lt m.s _ co hs
  have hcid : ((cid.toNat : Nat) : Int) = cid := Int.toNat_of_nonneg hr.1
  obtain ⟨st1, hres⟩ := resume_switch m cid co hr hs (Or.inl hst)
    (fun h => by rw [hst] at h; exact absurd h (by decide))
  simp only [hst, if_true] at hres
  obtain ⟨st2, hstores⟩ := run_stores body
    ⟨⟨m.s.cos.set cid.toNat (some ⟨co.func, co.arg, .CO_RUNNING, .co cid, co.size, co.stack⟩),
      m.s.capacity, m.cur, cid, st1⟩, .co cid⟩ (by simp) hbody
  have hrun : run m (.resume cid :: (body ++ [.ret])) = .ok
      ⟨⟨(m.s.cos.set cid.toNat
            (some ⟨co.func, co.arg, .CO_RUNNING, .co cid, co.size, co.stack⟩)).set cid.toNat none,
          m.s.capacity, m.cur, -1, st2⟩, m.cur⟩ := by
    have hstep : step m (.resume cid) = coroutine_resume m cid := by
      simp [step, hcur]
    simp only [run, hstep, hres, run_append, hstores]
    rfl
  have hslot2 : ∀ j : Nat, Scheduler.slot
      ⟨(m.s.cos.set cid.toNat
          (some ⟨co.func, co.arg, .CO_RUNNING, .co cid, co.size, co.stack⟩)).set cid.toNat none,
        m.s.capacity, m.cur, -1, st2⟩ j
      = if j = cid.toNat then none else m.s.slot j := by
    intro j
    simp only [Scheduler.slot, getD_set, List.length_set]
    by_cases hj : j = cid.toNat
    · simp [hj, hlen]
    · simp [hj]
  have hr2 : cid ≥ 0 ∧ cid < m.s.capacity := hr
  refine ⟨_, _, hres, rfl, ⟨⟨co.func, co.arg, .CO_RUNNING, .co cid, co.size, co.stack⟩, ?_, rfl⟩,
    hrun, hcur, ?_, ?_, rfl, ?_, ?_⟩
  · simp only [Scheduler.slot, getD_set, hlen, and_self, if_true]
  · rw [hslot2]; simp
  · unfold coroutine_status
    simp only [hr2, and_self, not_true_eq_false, if_false, hslot2, if_true]
  · intro j hj
    rw [hslot2]; simp [hj]
  · intro func arg hfunc hlow
    have hff := firstFree_lowest
      ((m.s.cos.set cid.toNat
        (some ⟨co.func, co.arg, .CO_RUNNING, .co cid, co.size, co.stack⟩)).set cid.toNat none)
      m.s.capacity.toNat cid.toNat (by omega)
      (by have := hslot2 cid.toNat; simpa [Scheduler.slot] using this)
      (fun j hj => hlow j hj)
    have hcreate : coroutine_create
        ⟨(m.s.cos.set cid.toNat
            (some ⟨co.func, co.arg, .CO_RUNNING, .co cid, co.size, co.stack⟩)).set cid.toNat none,
          m.s.capacity, m.cur, -1, st2⟩ func arg
        = .ok (⟨((m.s.cos.set cid.toNat
            (some ⟨co.func, co.arg, .CO_RUNNING, .co cid, co.size, co.stack⟩)).set cid.toNat
              none).set cid.toNat (some (_coroutine_new func arg)),
          m.s.capacity, m.cur, -1, st2⟩, cid) := by
      simp only [coroutine_create, hfunc, if_false, hff, hcid]
    refine ⟨_, hcreate, ?_⟩
    simp only [Scheduler.slot, getD_set, List.length_set, hlen, and_self, if_true]

/-- C14 at the scheduler with one dormant coroutine, in slot 0. -/
theorem resume_return_frees_slot_witness :
    ∃ m2 : Machine,
      run oneCreated [.resume 0, .store 5 1, .ret] = .ok m2
        ∧ m2.cur = .main ∧ m2.s.slot 0 = none
        ∧ coroutine_status m2.s 0 = .ok 3 ∧ coroutine_running m2.s = -1
        ∧ ∃ s3 : Scheduler, coroutine_create m2.s 2 0 = .ok (s3, 0) := by
  obtain ⟨_, m2, _, _, _, h1, h2, h3, h4, h5, _, h6⟩ :=
    resume_return_frees_slot oneCreated 0 (_coroutine_new 1 0) [.store 5 1] rfl (by decide) rfl rfl
      (by decide)
  obtain ⟨s3, h7, _⟩ := h6 2 0 (by decide) (fun j hj => absurd hj (Nat.not_lt_zero j))
  exact ⟨m2, h1, h2, h3, h4, h5, s3, h7⟩

/-- C15: `main` with both counts equal to `n`, for every place of the local `i` within the live
extent of `test` and with enough rounds allowed for (`n + 2` evaluations of the loop
condition), ends its loop having printed exactly (0, 0) (1, 0) (0, 1) (1, 1) ... (0, n-1)
(1, n-1), the ids of the two coroutines being 0 and 1, with the caller executing,
`coroutine_finished` returning 1 and every slot empty. -/
theorem main_trace (n d ext fuel : Nat)
    (hd : 1 ≤ d) (hde : d ≤ ext) (hext : ext ≤ DEFAULT_STACK_SZIE) (hfuel : n + 2 ≤ fuel) :
    ∃ m : Machine,
      mainTrace n n d ext fuel
          = some (.ok (m, (List.range n).flatMap (fun i => [((0 : Int), i), ((1 : Int), i)])))
        ∧ m.cur = .main ∧ coroutine_finished m.s = 1
        ∧ ∀ i : Nat, m.s.slot i = none := by
  rw [mainTrace_eq]
  have htrace : (List.range n).flatMap (fun i => [((0 : Int), i), ((1 : Int), i)])
      = alternating 0 n := by
    simp [alternating, List.range_eq_range']
  rw [htrace]
  rcases Nat.eq_zero_or_pos n with h0 | hpos
  · subst h0
    obtain ⟨f, rfl⟩ : ∃ f, fuel = f + 1 + 1 := ⟨fuel - 2, by omega⟩
    obtain ⟨st1, h1⟩ := (resumeTest_first (fun a => if a = 1 then 0 else 0) d ext
      (_coroutine_new TEST 1) (some (_coroutine_new TEST 2)) .null 0 (fun _ => 0) 0 []
      hd hde hext (Or.inl ⟨rfl, by decide, rfl⟩)).2 (by simp)
    obtain ⟨st2, h2⟩ := (resumeTest_second (fun a => if a = 1 then 0 else 0) d ext
      (_coroutine_new TEST 2) none .main (-1) st1 0 []
      hd hde hext (Or.inl ⟨rfl, by decide, rfl⟩)).2 (by simp)
    refine ⟨pairState none none .main (-1) st2, ?_, rfl, rfl, pair_none_slot _ _ _⟩
    rw [mainLoop_round _ d ext (f + 1) _ _ _ [] [] []
      (finished_pair_first _ _ _ _ _ (by simp [_coroutine_new])) h1 h2]
    rw [mainLoop_done _ d ext f _ [] (finished_pair_none _ _ _)]
    rfl
  · obtain ⟨f, rfl⟩ : ∃ f, fuel = f + 1 := ⟨fuel - 1, by omega⟩
    obtain ⟨bufA, st1, h1, hA, hAj⟩ := (resumeTest_first (fun a => if a = 1 then n else n) d ext
      (_coroutine_new TEST 1) (some (_coroutine_new TEST 2)) .null 0 (fun _ => 0) 0 []
      hd hde hext (Or.inl ⟨rfl, by decide, rfl⟩)).1 (by simpa [_coroutine_new] using hpos)
    obtain ⟨bufB, st2, h2, hB, hBj⟩ := (resumeTest_second (fun a => if a = 1 then n else n)
      d ext (_coroutine_new TEST 2) (some ⟨TEST, 1, .CO_SUSPEND, .co 0, ext, bufA⟩)
      .main (-1) st1 0 ([] ++ [(0, 0)])
      hd hde hext (Or.inl ⟨rfl, by decide, rfl⟩)).1 (by simpa [_coroutine_new] using hpos)
    obtain ⟨st3, h3⟩ := mainLoop_suspended n d ext hd hde hext (n - 1) 0 bufA bufB st2
      ([] ++ [(0, 0)] ++ [(1, 0)]) f (by omega) hA hAj hB hBj (by omega)
    refine ⟨pairState none none .main (-1) st3, ?_, rfl, rfl, pair_none_slot _ _ _⟩
    rw [mainLoop_round _ d ext f _ _ _ [] _ _
      (finished_pair_first _ _ _ _ _ (by simp [_coroutine_new])) h1 h2]
    refine Eq.trans h3 ?_
    obtain ⟨k, rfl⟩ : ∃ k, n = k + 1 := ⟨n - 1, by omega⟩
    rw [alternating_succ]
    simp

/-- C15 for `n = 3`: the lines are (0, 0) (1, 0) (0, 1) (1, 1) (0, 2) (1, 2). -/
theorem main_trace_witness :
    ∃ m : Machine,
      mainTrace 3 3 8 64 5
          = some (.ok (m, [(0, 0), (1, 0), (0, 1), (1, 1), (0, 2), (1, 2)]))
        ∧ m.cur = .main ∧ coroutine_finished m.s = 1
        ∧ ∀ i : Nat, m.s.slot i = none :=
  main_trace 3 8 64 5 (by decide) (by decide) (by decide) (by decide)

/-- C16: for every scheduler and every id within the capacity, `coroutine_status` returns the
value of the state of the coroutine in the slot when it is occupied and 3, the value of
`CO_DONE`, when it is empty. The function only reads the scheduler: its result is a number. -/
theorem coroutine_status_value (s : Scheduler) (cid : Int)
    (hr : 0 ≤ cid ∧ cid < s.capacity) :
    coroutine_status s cid
      = .ok (match s.slot cid.toNat with
        | some co => co.state.val
        | none => 3) := by
  have hr2 : cid ≥ 0 ∧ cid < s.capacity := hr
  unfold coroutine_status
  simp only [hr2, and_self, not_true_eq_false, if_false]
  cases s.slot cid.toNat with
  | none => rfl
  | some co => rfl

/-- C16 at a suspended coroutine in slot 0 and the empty slot 1. -/
theorem coroutine_status_value_witness :
    ∃ m : Machine, run start [.create 7 9, .resume 0, .yield 5] = .ok m
      ∧ coroutine_status m.s 0 = .ok 2 ∧ coroutine_status m.s 1 = .ok 3 :=
  ⟨_, rfl, coroutine_status_value _ 0 (by decide), coroutine_status_value _ 1 (by decide)⟩

/-- C17: when every slot below the capacity is occupied, `coroutine_create` with a non-null entry
function returns the old capacity as the id and every slot below the old capacity holds
exactly the coroutine it held before the call. -/
theorem coroutine_create_grow_keeps_slots (s : Scheduler) (func : CoFunc) (arg : Arg)
    (hfunc : func ≠ 0)
    (hfull : ∀ i : Nat, (i : Int) < s.capacity → s.slot i ≠ none) :
    ∃ s1 : Scheduler,
      coroutine_create s func arg = .ok (s1, s.capacity)
        ∧ ∀ i : Nat, (i : Int) < s.capacity → s1.slot i = s.slot i := by
  have hff : firstFree s.cos s.capacity.toNat 0 = none :=
    firstFree_full s.cos _ (fun j hj => hfull j (by omega))
  have hc : coroutine_create s func arg = .ok
      (⟨(reallocCos s.cos (s.capacity * 2).toNat).set s.capacity.toNat
          (some (_coroutine_new func arg)), s.capacity, s.main, s.running, s.stack⟩,
        s.capacity) := by
    simp [coroutine_create, hfunc, hff]
  refine ⟨_, hc, ?_⟩
  · intro i hi
    have h1 : ¬ (i = s.capacity.toNat ∧
        s.capacity.toNat < (reallocCos s.cos (s.capacity * 2).toNat).length) := by omega
    have h2 : i < (s.capacity * 2).toNat := by omega
    simp only [Scheduler.slot, getD_set, getD_reallocCos, h1, h2, if_false, if_true]

/-- C17 at the registry that sixteen creates fill. -/
theorem coroutine_create_grow_keeps_slots_witness :
    ∃ s1 : Scheduler,
      coroutine_create fullRegistry 2 0 = .ok (s1, 16)
        ∧ ∀ i : Nat, (i : Int) < 16 → s1.slot i = fullRegistry.slot i :=
  coroutine_create_grow_keeps_slots fullRegistry 2 0 (by decide) (by
    intro i hi
    have h16 : i < 16 := by
      have : (i : Int) < 16 := hi
      omega
    have hall : ∀ j : Fin 16, fullRegistry.slot j.val ≠ none := by decide
    exact hall ⟨i, h16⟩)

/-- C18: `coroutine_resume` and `coroutine_status` fail an assertion exactly when the id is
negative or not below the capacity. A failed call yields no scheduler: the assertion is the
first thing either function does with the id, before any store. -/
theorem range_assertions (m : Machine) (cid : Int) :
    (coroutine_resume m cid = .error .assertion ↔ (cid < 0 ∨ cid ≥ m.s.capacity))
      ∧ (coroutine_status m.s cid = .error .assertion ↔ (cid < 0 ∨ cid ≥ m.s.capacity)) := by
  by_cases hr : cid ≥ 0 ∧ cid < m.s.capacity
  · have hn : ¬ (cid < 0 ∨ cid ≥ m.s.capacity) := by omega
    refine ⟨⟨fun h => absurd h (resume_in_range_no_assertion m cid hr), fun h => absurd h hn⟩,
      ⟨fun h => ?_, fun h => absurd h hn⟩⟩
    unfold coroutine_status at h
    rw [if_neg (not_not_intro hr)] at h
    split at h <;> simp at h
  · have hn : cid < 0 ∨ cid ≥ m.s.capacity := by omega
    refine ⟨⟨fun _ => hn, fun _ => ?_⟩, ⟨fun _ => hn, fun _ => ?_⟩⟩
    · unfold coroutine_resume
      rw [if_pos hr]
    · unfold coroutine_status
      rw [if_pos hr]

/-- C19: successive `_save_stack` calls on one coroutine with extents 10, 5 and 8 leave a buffer of
10, 10 and then 8 bytes: the third call reallocates the buffer to a smaller size, because the
extent is compared with the size of the last snapshot and not with the allocated length. The
same through the interface, a coroutine yielding with 10, 5 and 8 live bytes. -/
theorem save_stack_shrinks_buffer :
    saveLengths (_coroutine_new 1 0) [(fun _ => 0, 10), (fun _ => 0, 5), (fun _ => 0, 8)]
        = [10, 10, 8]
      ∧ (∃ (m : Machine) (co : Coroutine),
          run start [.create 1 0, .resume 0, .yield 10, .resume 0, .yield 5] = .ok m
            ∧ m.s.slot 0 = some co ∧ co.size = 5 ∧ co.stack.length = 10)
      ∧ (∃ (m : Machine) (co : Coroutine),
          run start [.create 1 0, .resume 0, .yield 10, .resume 0, .yield 5, .resume 0, .yield 8]
              = .ok m
            ∧ m.s.slot 0 = some co ∧ co.size = 8 ∧ co.stack.length = 8) :=
  ⟨by decide, ⟨_, _, rfl, rfl, rfl, rfl⟩, ⟨_, _, rfl, rfl, rfl, rfl⟩⟩

/-- C20: for a new coroutine and every sequence of `_save_stack` calls with extents between zero
and the stack size, every call succeeds (no `memcpy` leaves the buffer), and afterwards the
recorded size lies between zero and the stack size and within the allocated length of the
buffer, so that stack size - size is not negative and `coroutine_resume` on a slot holding
that snapshot has no memory fault. -/
theorem save_stack_in_bounds (func : CoFunc) (arg : Arg) (calls : List ((Nat → Byte) × Int))
    (hn : ∀ c ∈ calls, 0 ≤ c.2 ∧ c.2 ≤ (DEFAULT_STACK_SZIE : Int)) :
    ∃ co1 : Coroutine,
      saveAll (_coroutine_new func arg) calls = .ok co1
        ∧ 0 ≤ co1.size ∧ co1.size ≤ (DEFAULT_STACK_SZIE : Int)
        ∧ co1.size.toNat ≤ co1.stack.length
        ∧ 0 ≤ (DEFAULT_STACK_SZIE : Int) - co1.size
        ∧ ∀ (m : Machine) (cid : Int) (co2 : Coroutine),
            m.s.slot cid.toNat = some co2 →
            co2.size = co1.size → co2.stack = co1.stack →
            coroutine_resume m cid ≠ .error .memory := by
  obtain ⟨co1, h1, h2, h3, h4⟩ :=
    saveAll_bounds calls (_coroutine_new func arg) (by simp [_coroutine_new]) hn
  refine ⟨co1, h1, h2, h3, h4, by omega, ?_⟩
  intro m cid co2 hs hsz hstk
  have hok : ¬ (co2.size < 0 ∨ (DEFAULT_STACK_SZIE : Int) < co2.size
      ∨ co2.stack.length < co2.size.toNat) := by
    rw [hsz, hstk]; omega
  unfold coroutine_resume
  split
  · simp
  · rw [hs]
    simp only
    split
    · simp
    · rw [if_neg hok]; simp
    · simp

/-- C20 at three saves with extents 10, 5 and 8. -/
theorem save_stack_in_bounds_witness :
    ∃ co1 : Coroutine,
      saveAll (_coroutine_new 7 9) [(fun a => a % 251, 10), (fun _ => 1, 5), (fun _ => 2, 8)]
          = .ok co1
        ∧ co1.size = 8 ∧ co1.stack = [2, 2, 2, 2, 2, 2, 2, 2] := by
  obtain ⟨co1, h1, _⟩ := save_stack_in_bounds 7 9
    [(fun a => a % 251, 10), (fun _ => 1, 5), (fun _ => 2, 8)] (by decide)
  refine ⟨co1, h1, ?_, ?_⟩
  · have h2 : saveAll (_coroutine_new 7 9)
        [(fun a => a % 251, 10), (fun _ => 1, 5), (fun _ => 2, 8)]
        = .ok ⟨7, 9, .CO_READY, .null, 8, [2, 2, 2, 2, 2, 2, 2, 2]⟩ := by rfl
    rw [h2] at h1
    cases h1; rfl
  · have h2 : saveAll (_coroutine_new 7 9)
        [(fun a => a % 251, 10), (fun _ => 1, 5), (fun _ => 2, 8)]
        = .ok ⟨7, 9, .CO_READY, .null, 8, [2, 2, 2, 2, 2, 2, 2, 2]⟩ := by rfl
    rw [h2] at h1
    cases h1; rfl

end CoLib
